import Mathlib

/-!
Shallow embedding of the big-integer gadget library `boray/o1js-bigint`
(`src/BigIntGeneric.ts`, with `src/BigInt.ts` being the same code fixed at the
`384_6` and `2048_18` parameter sets), together with proofs about it.

The library runs inside the o1js proof framework.  We embed its
*out-of-circuit* (prover) semantics: an o1js `Field` is a canonical residue
modulo the Pallas base-field order `fieldP`; `Field.add/sub/mul` compute mod
`fieldP`; `Field.greaterThan/lessThan/equals` compare canonical residues;
`Field.div` multiplies by the modular inverse of the divisor; assertions
(`assertEquals`, `assertTrue`) abort the computation when they do not hold,
which we model with `Option` (a `none` result is an aborted run, including
`fromBigint` throwing inside a witness block, and JavaScript `bigint`
division by zero).
-/

set_option maxRecDepth 10000
set_option exponentiation.threshold 5000

namespace O1js

/-- Order of the o1js base field (Pallas base field). -/
def fieldP : ℕ := 28948022309329048855892746252171976963363056481941560715954676764349967630337

/-- Canonical residue of a constant, as produced by `Field.from` / `Field(n)`. -/
def fofn (x : ℕ) : ℕ := x % fieldP

/-- `Field.add` on canonical residues. -/
def fadd (x y : ℕ) : ℕ := (x + y) % fieldP

/-- `Field.mul` on canonical residues. -/
def fmul (x y : ℕ) : ℕ := (x * y) % fieldP

/-- `Field.sub` on canonical residues. -/
def fsub (x y : ℕ) : ℕ := (x + (fieldP - y % fieldP)) % fieldP

/-- Fuel-bounded square-and-multiply modular exponentiation; with enough fuel
this computes `b ^ e % m`.  It is executable by the kernel, which lets the
inverse facts needed below be established by `decide` at concrete inputs. -/
def powModAux : ℕ → ℕ → ℕ → ℕ → ℕ
  | 0, _, _, _ => 1
  | fuel + 1, b, e, m =>
    if e = 0 then 1 % m
    else
      let r := powModAux fuel ((b * b) % m) (e / 2) m
      if e % 2 = 1 then (r * b) % m else r

/-- Multiplicative inverse in the o1js field (Fermat), realising `Field.inv`.
The fuel 300 exceeds the bit length of the exponent `fieldP - 2`. -/
def finv (x : ℕ) : ℕ := powModAux 300 (x % fieldP) (fieldP - 2) fieldP

/-- `Field.div` on canonical residues: multiply by the inverse. -/
def fdiv (x y : ℕ) : ℕ := fmul x (finv y)

/-- The parameter record of `createBigIntClass` (`BigIntGeneric.ts`). -/
structure BigIntParameter where
  limb_num : ℕ
  limb_size : ℕ
  mask : ℕ
  MAX : ℕ
deriving DecidableEq

/-- The limb loop of `fromBigint`: push `x & mask`, then shift `x` right by
`limb_size`, repeated `limb_num` times (first argument is the count). -/
def decompFields (P : BigIntParameter) : ℕ → ℕ → List ℕ
  | 0, _ => []
  | n + 1, x => fofn (x &&& P.mask) :: decompFields P n (x >>> P.limb_size)

/-- The `ProvableBigInt` struct: a `limb_num`-element field array plus the
`Unconstrained` plain-integer cache `value`. -/
structure ProvableBigInt where
  fields : List ℕ
  value : ℤ
deriving DecidableEq

/-- `fromBigint` after its two range guards have passed. -/
def fromBigintNat (P : BigIntParameter) (x : ℕ) : ProvableBigInt :=
  ⟨decompFields P P.limb_num x, (x : ℤ)⟩

/-- `fromBigint` called on a non-negative input: `none` models the
`Input exceeds ...-bit size limit` throw. -/
def fromBigintNatChecked (P : BigIntParameter) (x : ℕ) : Option ProvableBigInt :=
  if P.MAX < x then none else some (fromBigintNat P x)

/-- `static fromBigint(x)`: `none` models either throw (`Input must be
non-negative`, `Input exceeds ...-bit size limit`). -/
def fromBigintChecked (P : BigIntParameter) (x : ℤ) : Option ProvableBigInt :=
  if x < 0 then none else fromBigintNatChecked P x.toNat

/-- The loop of `toBigint()`: `result |= fields[i] << (limb_size * i)`. -/
def toBigintAux (ls : ℕ) : List ℕ → ℕ → ℕ → ℕ
  | [], _, acc => acc
  | f :: fs, i, acc => toBigintAux ls fs (i + 1) (acc ||| (f <<< (ls * i)))

/-- `toBigint()`. -/
def toBigint (P : BigIntParameter) (x : ProvableBigInt) : ℕ :=
  toBigintAux P.limb_size x.fields 0 0

/-- `Provable.equal` on two `ProvableBigInt`s compares the provable data,
i.e. the `fields` array (the `Unconstrained` cache carries no field
elements). -/
def equalsB (a b : ProvableBigInt) : Bool := decide (a.fields = b.fields)

/-- Primitive gadget `Gadgets.rangeCheck16`: asserts its input is below `2^16`. -/
def rc16 (x : ℕ) : Bool := decide (x < 2 ^ 16)

/-- Primitive gadget `Gadgets.rangeCheck32`. -/
def rc32 (x : ℕ) : Bool := decide (x < 2 ^ 32)

/-- Primitive gadget `Gadgets.rangeCheck64`. -/
def rc64 (x : ℕ) : Bool := decide (x < 2 ^ 64)

/-- `rangeCheck48`: split at bit 32, bound the two pieces, recombine. -/
def rangeCheck48ok (x : ℕ) : Bool :=
  let x0 := x &&& ((1 <<< 32) - 1)
  let x1 := x >>> 32
  rc32 x0 && rc16 x1 && decide (fadd x0 (fmul x1 (fofn (1 <<< 32))) = x)

/-- `rangeCheck116`: split at bit 64; the `x52` sub-limb that
`Gadgets.rangeCheck64` returns for the high piece (its bits 52..63) is
asserted to be zero, so the high piece has at most 52 bits. -/
def rangeCheck116ok (x : ℕ) : Bool :=
  let x0 := x &&& ((1 <<< 64) - 1)
  let x1 := x >>> 64
  rc64 x0 && rc64 x1 && decide ((x1 >>> 52) &&& ((1 <<< 12) - 1) = 0) &&
    decide (fadd x0 (fmul x1 (fofn (1 <<< 64))) = x)

/-- `rangeCheck128`: split at bit 64, bound both pieces, recombine. -/
def rangeCheck128ok (x : ℕ) : Bool :=
  let x0 := x &&& ((1 <<< 64) - 1)
  let x1 := x >>> 64
  rc64 x0 && rc64 x1 && decide (fadd x0 (fmul x1 (fofn (1 <<< 64))) = x)

/-- `rangeCheck192`: split at bits 64 and 128, bound the three pieces,
recombine. -/
def rangeCheck192ok (x : ℕ) : Bool :=
  let x0 := x &&& ((1 <<< 64) - 1)
  let x1 := (x >>> 64) &&& ((1 <<< 64) - 1)
  let x2 := x >>> 128
  rc64 x0 && rc64 x1 && rc64 x2 &&
    decide (fadd (fadd x0 (fmul x1 (fofn (1 <<< 64)))) (fmul x2 (fofn (1 <<< 128))) = x)

/-- The `rangeCheck(x, bits)` dispatcher: a `switch` on the width with **no
default branch** — any width outside the six listed cases emits nothing. -/
def rangeCheckOk (x : ℕ) (bits : ℕ) : Bool :=
  if bits = 32 then rc32 x
  else if bits = 48 then rangeCheck48ok x
  else if bits = 64 then rc64 x
  else if bits = 116 then rangeCheck116ok x
  else if bits = 128 then rangeCheck128ok x
  else if bits = 192 then rangeCheck192ok x
  else true

/-- The limb-summation loop of `add`: `sum = a_i + b_i + carry`,
`carry = sum > mask`, store `sum - carry * (mask + 1)`. -/
def addLimbs (mask : ℕ) : List ℕ → List ℕ → ℕ → List ℕ
  | x :: xs, y :: ys, c =>
    let sum := fadd (fadd x y) c
    let c2 := if fofn mask < sum then 1 else 0
    fsub sum (fmul c2 (fofn (mask + 1))) :: addLimbs mask xs ys c2
  | _, _, _ => []

/-- The `isGreaterOrEqual` accumulation of `add`:
`isGreaterOrEqual = isGreaterOrEqual || isGreater || (isEqual && isGreaterOrEqual)`. -/
def addGEFold : List ℕ → List ℕ → Bool → Bool
  | x :: xs, y :: ys, acc =>
    addGEFold xs ys ((acc || decide (y < x)) || (decide (x = y) && acc))
  | _, _, acc => acc

/-- The conditional-subtraction loop of `add`; note the source computes
`borrow = diff.lessThan(Field.from(0))`, a comparison of canonical residues
against zero. -/
def addSubLoop (mask : ℕ) (ge : Bool) : List ℕ → List ℕ → ℕ → List ℕ
  | x :: xs, y :: ys, borrow =>
    let diff := fsub (fsub x (fmul y (if ge then 1 else 0))) borrow
    let b2 := if diff < fofn 0 then 1 else 0
    fadd diff (fmul b2 (fofn (mask + 1))) :: addSubLoop mask ge xs ys b2
  | _, _, _ => []

/-- `add(a, b)` on modulus `me`; `none` models a failing range check. -/
def addChecked (P : BigIntParameter) (me a b : ProvableBigInt) : Option ProvableBigInt :=
  let s := addLimbs P.mask a.fields b.fields 0
  if s.all (fun l => rangeCheckOk l P.limb_size) then
    let ge := addGEFold s me.fields false
    some ⟨addSubLoop P.mask ge s me.fields 0, (a.value + b.value).tmod me.value⟩
  else none

/-- The borrow loop of `sub`: `borrow = !(diff < mask + 1)`. -/
def subLimbs (mask : ℕ) : List ℕ → List ℕ → ℕ → List ℕ
  | x :: xs, y :: ys, borrow =>
    let diff := fsub (fsub x y) borrow
    let b2 := if diff < fofn (mask + 1) then 0 else 1
    fadd diff (fmul b2 (fofn (mask + 1))) :: subLimbs mask xs ys b2
  | _, _, _ => []

/-- `sub(a, b)` on modulus `me`; `none` models a failing range check. -/
def subChecked (P : BigIntParameter) (me a b : ProvableBigInt) : Option ProvableBigInt :=
  let s := subLimbs P.mask a.fields b.fields 0
  if s.all (fun l => rangeCheckOk l P.limb_size) then
    some ⟨s, (a.value - b.value).tmod me.value⟩
  else none

/-- Inner loop of `mul`: `delta[i + j] += X[i] * Y[j]` for `j` over `Y`,
starting at position `k = i`. -/
def mulAddLoop (xi : ℕ) : List ℕ → ℕ → List ℕ → List ℕ
  | [], _, d => d
  | yj :: ys, k, d => mulAddLoop xi ys (k + 1) (d.set k (fadd (d.getD k 0) (fmul xi yj)))

/-- Inner loop of `mul`: `delta[i + j] -= Q[i] * P[j]`. -/
def mulSubLoop (qi : ℕ) : List ℕ → ℕ → List ℕ → List ℕ
  | [], _, d => d
  | pj :: ps, k, d => mulSubLoop qi ps (k + 1) (d.set k (fsub (d.getD k 0) (fmul qi pj)))

/-- Outer loop of `mul` over `i`: add the product row, subtract the
quotient-times-modulus row, subtract `R[i]` from `delta[i]`. -/
def mulOuter (Y Pf : List ℕ) : List ℕ → List ℕ → List ℕ → ℕ → List ℕ → List ℕ
  | x :: xs, q :: qs, r :: rs, i, d =>
    let d1 := mulAddLoop x Y i d
    let d2 := mulSubLoop q Pf i d1
    let d3 := d2.set i (fsub (d2.getD i 0) r)
    mulOuter Y Pf xs qs rs (i + 1) d3
  | _, _, _, _, d => d

/-- The `delta` array of `mul`, built from the zero array of length
`2 * limb_num - 1`. -/
def mulDelta (P : BigIntParameter) (X Y Q R Pf : List ℕ) : List ℕ :=
  mulOuter Y Pf X Q R 0 (List.replicate (2 * P.limb_num - 1) 0)

/-- The carry-propagation loop of `mul`: the carry is witnessed as the field
quotient `deltaPlusCarry.div(1 << limb_size)` and the product is asserted
back (`none` models a failing `assertEquals`). -/
def carryChain (B : ℕ) : List ℕ → ℕ → Option ℕ
  | [], c => some c
  | d :: ds, c =>
    let dpc := fadd d c
    let c2 := fdiv dpc B
    if dpc = fmul c2 B then carryChain B ds c2 else none

/-- `mul(a, b)` on modulus `me`.  `none` models: JavaScript division by the
zero modulus inside the witness block, `fromBigint` throwing on an
over-`MAX` quotient or remainder, a failing carry-chain `assertEquals`, or
the failing final `delta + carry == 0` assertion. -/
def mulChecked (P : BigIntParameter) (me a b : ProvableBigInt) : Option ProvableBigInt :=
  let m := toBigint P me
  if m = 0 then none
  else
    let xy := toBigint P a * toBigint P b
    (fromBigintNatChecked P (xy / m)).bind fun q =>
    (fromBigintNatChecked P (xy - xy / m * m)).bind fun r =>
    let delta := mulDelta P a.fields b.fields q.fields r.fields me.fields
    (carryChain (fofn (1 <<< P.limb_size)) (delta.take (2 * P.limb_num - 2)) 0).bind fun c =>
    if fadd (delta.getD (2 * P.limb_num - 2) 0) c = 0 then some r else none

/-- `div(a, b)`: witness `r = a % b`, `q = (a - r) / b`, then assert
`equals(add(mul(q, b), r), a)`.  `none` models: division by zero in the
witness, `fromBigint` throwing, any abort inside `mul`/`add`, or the final
failing `assertTrue`. -/
def divChecked (P : BigIntParameter) (me a b : ProvableBigInt) :
    Option (ProvableBigInt × ProvableBigInt) :=
  let bv := toBigint P b
  if bv = 0 then none
  else
    let av := toBigint P a
    (fromBigintNatChecked P ((av - av % bv) / bv)).bind fun q =>
    (fromBigintNatChecked P (av % bv)).bind fun r =>
    (mulChecked P me q b).bind fun mr =>
    (addChecked P me mr r).bind fun s =>
    if equalsB s a then some (q, r) else none

/-- `mod(a)` is `this.div(a, this).remainder`. -/
def modChecked (P : BigIntParameter) (me a : ProvableBigInt) : Option ProvableBigInt :=
  (divChecked P me a me).map Prod.snd

/-- The accumulation of `static greaterThan`:
`result = isGreater || (result && isEqual)`. -/
def gtFold : List ℕ → List ℕ → Bool → Bool
  | x :: xs, y :: ys, res => gtFold xs ys (decide (y < x) || (res && decide (x = y)))
  | _, _, res => res

/-- `static greaterThan(a, b)`. -/
def greaterThanB (a b : ProvableBigInt) : Bool := gtFold a.fields b.fields false

/-- The accumulation of `static lessThan`. -/
def ltFold : List ℕ → List ℕ → Bool → Bool
  | x :: xs, y :: ys, res => ltFold xs ys (decide (x < y) || (res && decide (x = y)))
  | _, _, res => res

/-- `static lessThan(a, b)`. -/
def lessThanB (a b : ProvableBigInt) : Bool := ltFold a.fields b.fields false

/-- `static greaterThanOrEqual(a, b)`: the same fold, `or`-ed with `equals`. -/
def greaterThanOrEqualB (a b : ProvableBigInt) : Bool :=
  gtFold a.fields b.fields false || equalsB a b

/-- `static lessThanOrEqual(a, b)`. -/
def lessThanOrEqualB (a b : ProvableBigInt) : Bool :=
  ltFold a.fields b.fields false || equalsB a b

/-- Entry `"384_12"` of `BigIntParams`. -/
def BigIntParams_384_12 : BigIntParameter := ⟨12, 32, (1 <<< 32) - 1, (1 <<< 384) - 1⟩

/-- Entry `"384_9"` of `BigIntParams`. -/
def BigIntParams_384_9 : BigIntParameter := ⟨9, 48, (1 <<< 48) - 1, (1 <<< 384) - 1⟩

/-- Entry `"384_6"` of `BigIntParams` (also the parameter set of `BigInt384`
in `BigInt.ts`). -/
def BigIntParams_384_6 : BigIntParameter := ⟨6, 64, (1 <<< 64) - 1, (1 <<< 384) - 1⟩

/-- Entry `"384_3"` of `BigIntParams`. -/
def BigIntParams_384_3 : BigIntParameter := ⟨3, 128, (1 <<< 128) - 1, (1 <<< 384) - 1⟩

/-- Entry `"384_2"` of `BigIntParams`. -/
def BigIntParams_384_2 : BigIntParameter := ⟨2, 192, (1 <<< 192) - 1, (1 <<< 384) - 1⟩

/-- Entry `"512_16"` of `BigIntParams`. -/
def BigIntParams_512_16 : BigIntParameter := ⟨16, 32, (1 <<< 32) - 1, (1 <<< 512) - 1⟩

/-- Entry `"512_8"` of `BigIntParams`. -/
def BigIntParams_512_8 : BigIntParameter := ⟨8, 64, (1 <<< 64) - 1, (1 <<< 512) - 1⟩

/-- Entry `"512_4"` of `BigIntParams`. -/
def BigIntParams_512_4 : BigIntParameter := ⟨4, 128, (1 <<< 128) - 1, (1 <<< 512) - 1⟩

/-- Entry `"576_9"` of `BigIntParams`; note its `MAX` is `2^512 - 1`. -/
def BigIntParams_576_9 : BigIntParameter := ⟨9, 64, (1 <<< 64) - 1, (1 <<< 512) - 1⟩

/-- Entry `"1024_16"` of `BigIntParams`. -/
def BigIntParams_1024_16 : BigIntParameter := ⟨16, 64, (1 <<< 64) - 1, (1 <<< 1024) - 1⟩

/-- Entry `"1024_8"` of `BigIntParams`. -/
def BigIntParams_1024_8 : BigIntParameter := ⟨8, 128, (1 <<< 128) - 1, (1 <<< 1024) - 1⟩

/-- Entry `"2048_18"` of `BigIntParams` (also the parameter set of
`BigInt2048` in `BigInt.ts`). -/
def BigIntParams_2048_18 : BigIntParameter := ⟨18, 116, (1 <<< 116) - 1, (1 <<< 2088) - 1⟩

/-- Entry `"2048_16"` of `BigIntParams`. -/
def BigIntParams_2048_16 : BigIntParameter := ⟨16, 64, (1 <<< 64) - 1, (1 <<< 2048) - 1⟩

/-- Entry `"2048_8"` of `BigIntParams`. -/
def BigIntParams_2048_8 : BigIntParameter := ⟨8, 128, (1 <<< 128) - 1, (1 <<< 2048) - 1⟩

/-- The `BigIntParams` table, in source order. -/
def BigIntParams : List (String × BigIntParameter) :=
  [("384_12", BigIntParams_384_12), ("384_9", BigIntParams_384_9),
   ("384_6", BigIntParams_384_6), ("384_3", BigIntParams_384_3),
   ("384_2", BigIntParams_384_2), ("512_16", BigIntParams_512_16),
   ("512_8", BigIntParams_512_8), ("512_4", BigIntParams_512_4),
   ("576_9", BigIntParams_576_9), ("1024_16", BigIntParams_1024_16),
   ("1024_8", BigIntParams_1024_8), ("2048_18", BigIntParams_2048_18),
   ("2048_16", BigIntParams_2048_16), ("2048_8", BigIntParams_2048_8)]

/-! ### Basic facts about the field embedding -/

theorem fieldP_pos : 0 < fieldP := by decide

theorem fofn_lt (x : ℕ) : fofn x < fieldP := Nat.mod_lt _ fieldP_pos

theorem fadd_lt (x y : ℕ) : fadd x y < fieldP := Nat.mod_lt _ fieldP_pos

theorem fsub_lt (x y : ℕ) : fsub x y < fieldP := Nat.mod_lt _ fieldP_pos

theorem fmul_lt (x y : ℕ) : fmul x y < fieldP := Nat.mod_lt _ fieldP_pos

theorem fofn_eq_of_lt {x : ℕ} (h : x < fieldP) : fofn x = x := Nat.mod_eq_of_lt h

theorem fadd_eq_of_lt {x y : ℕ} (h : x + y < fieldP) : fadd x y = x + y := Nat.mod_eq_of_lt h

theorem fmul_eq_of_lt {x y : ℕ} (h : x * y < fieldP) : fmul x y = x * y := Nat.mod_eq_of_lt h

theorem fsub_eq_of_le {x y : ℕ} (hy : y ≤ x) (hx : x < fieldP) : fsub x y = x - y := by
  unfold fsub
  have hyp : y < fieldP := lt_of_le_of_lt hy hx
  rw [Nat.mod_eq_of_lt hyp]
  have h1 : x + (fieldP - y) = fieldP + (x - y) := by omega
  rw [h1, Nat.add_mod_left]
  exact Nat.mod_eq_of_lt (by omega)

theorem fmul_zero (y : ℕ) : fmul 0 y = 0 := by
  unfold fmul
  rw [Nat.zero_mul]
  exact Nat.zero_mod _

theorem fmul_zero_right (x : ℕ) : fmul x 0 = 0 := by
  unfold fmul
  rw [Nat.mul_zero]
  exact Nat.zero_mod _

/-! ### The weighted limb value and the limb codec -/

/-- Proof-side weighted limb value `Σ fields[i] * 2^(limb_size * i)`, in
Horner form. -/
def limbSum (ls : ℕ) : List ℕ → ℕ
  | [] => 0
  | f :: fs => f + 2 ^ ls * limbSum ls fs

theorem lor_shift_eq_add {a b k : ℕ} (h : a < 2 ^ k) : a ||| b <<< k = a + b * 2 ^ k := by
  rw [Nat.shiftLeft_eq, Nat.mul_comm b, Nat.lor_comm, ← Nat.mul_add_lt_is_or h b]
  omega

theorem limbSum_lt {ls : ℕ} : ∀ {fs : List ℕ}, (∀ l ∈ fs, l < 2 ^ ls) →
    limbSum ls fs < 2 ^ (ls * fs.length)
  | [], _ => by simp [limbSum]
  | f :: fs, h => by
    have hf : f < 2 ^ ls := h f (List.mem_cons_self _ _)
    have hS : limbSum ls fs < 2 ^ (ls * fs.length) :=
      limbSum_lt fun l hl => h l (List.mem_cons_of_mem _ hl)
    simp only [limbSum, List.length_cons]
    calc f + 2 ^ ls * limbSum ls fs < 2 ^ ls + 2 ^ ls * limbSum ls fs := by omega
      _ = 2 ^ ls * (limbSum ls fs + 1) := by ring
      _ ≤ 2 ^ ls * 2 ^ (ls * fs.length) := Nat.mul_le_mul_left _ (by omega)
      _ = 2 ^ (ls * (fs.length + 1)) := by rw [← Nat.pow_add]; ring_nf

theorem toBigintAux_eq {ls : ℕ} : ∀ {fs : List ℕ} (i acc : ℕ),
    (∀ l ∈ fs, l < 2 ^ ls) → acc < 2 ^ (ls * i) →
    toBigintAux ls fs i acc = acc + limbSum ls fs * 2 ^ (ls * i)
  | [], i, acc, _, _ => by simp [toBigintAux, limbSum]
  | f :: fs, i, acc, h, hacc => by
    have hf : f < 2 ^ ls := h f (List.mem_cons_self _ _)
    have hstep : acc ||| f <<< (ls * i) = acc + f * 2 ^ (ls * i) := lor_shift_eq_add hacc
    have hbound : acc + f * 2 ^ (ls * i) < 2 ^ (ls * (i + 1)) := by
      have h1 : acc + f * 2 ^ (ls * i) < 2 ^ (ls * i) + f * 2 ^ (ls * i) := by omega
      have h2 : 2 ^ (ls * i) + f * 2 ^ (ls * i) = (f + 1) * 2 ^ (ls * i) := by ring
      have h3 : (f + 1) * 2 ^ (ls * i) ≤ 2 ^ ls * 2 ^ (ls * i) :=
        Nat.mul_le_mul_right _ (by omega)
      have h4 : 2 ^ ls * 2 ^ (ls * i) = 2 ^ (ls * (i + 1)) := by
        rw [← Nat.pow_add]; ring_nf
      omega
    have ih := @toBigintAux_eq ls fs (i + 1) (acc + f * 2 ^ (ls * i))
      (fun l hl => h l (List.mem_cons_of_mem _ hl)) hbound
    simp only [toBigintAux, limbSum]
    rw [hstep, ih]
    have h5 : 2 ^ (ls * (i + 1)) = 2 ^ ls * 2 ^ (ls * i) := by
      rw [← Nat.pow_add]; ring_nf
    rw [h5]; ring

theorem toBigint_eq_limbSum {P : BigIntParameter} {x : ProvableBigInt}
    (h : ∀ l ∈ x.fields, l < 2 ^ P.limb_size) :
    toBigint P x = limbSum P.limb_size x.fields := by
  unfold toBigint
  rw [toBigintAux_eq 0 0 h (by simp)]
  simp

theorem decompFields_length (P : BigIntParameter) : ∀ (n x : ℕ), (decompFields P n x).length = n
  | 0, _ => rfl
  | n + 1, x => by simp [decompFields, decompFields_length P n]

theorem decompFields_limb_eq {P : BigIntParameter} (hm : P.mask = 2 ^ P.limb_size - 1)
    (hp : 2 ^ P.limb_size ≤ fieldP) (n x : ℕ) :
    decompFields P (n + 1) x = x % 2 ^ P.limb_size :: decompFields P n (x >>> P.limb_size) := by
  simp only [decompFields, hm]
  rw [Nat.and_pow_two_sub_one_eq_mod, fofn_eq_of_lt (lt_of_lt_of_le (Nat.mod_lt _ (by positivity)) hp)]

theorem decompFields_limb_lt {P : BigIntParameter} (hm : P.mask = 2 ^ P.limb_size - 1)
    (hp : 2 ^ P.limb_size ≤ fieldP) :
    ∀ (n x : ℕ), ∀ l ∈ decompFields P n x, l < 2 ^ P.limb_size
  | 0, _ => by simp [decompFields]
  | n + 1, x => by
    rw [decompFields_limb_eq hm hp]
    intro l hl
    rcases List.mem_cons.mp hl with h | h
    · subst h; exact Nat.mod_lt _ (by positivity)
    · exact decompFields_limb_lt hm hp n _ l h

theorem limbSum_decompFields {P : BigIntParameter} (hm : P.mask = 2 ^ P.limb_size - 1)
    (hp : 2 ^ P.limb_size ≤ fieldP) :
    ∀ (n x : ℕ), limbSum P.limb_size (decompFields P n x) = x % 2 ^ (P.limb_size * n)
  | 0, x => by simp [decompFields, limbSum, Nat.mod_one]
  | n + 1, x => by
    rw [decompFields_limb_eq hm hp]
    simp only [limbSum]
    rw [limbSum_decompFields hm hp n, Nat.shiftRight_eq_div_pow]
    have h1 : 2 ^ (P.limb_size * (n + 1)) = 2 ^ P.limb_size * 2 ^ (P.limb_size * n) := by
      rw [← Nat.pow_add]; ring_nf
    rw [h1, Nat.mod_mul]

theorem decompFields_limbSum {P : BigIntParameter} (hm : P.mask = 2 ^ P.limb_size - 1)
    (hp : 2 ^ P.limb_size ≤ fieldP) :
    ∀ {fs : List ℕ}, (∀ l ∈ fs, l < 2 ^ P.limb_size) →
    decompFields P fs.length (limbSum P.limb_size fs) = fs
  | [], _ => rfl
  | f :: fs, h => by
    have hf : f < 2 ^ P.limb_size := h f (List.mem_cons_self _ _)
    rw [List.length_cons, decompFields_limb_eq hm hp]
    simp only [limbSum]
    have h1 : (f + 2 ^ P.limb_size * limbSum P.limb_size fs) % 2 ^ P.limb_size = f := by
      rw [Nat.add_mul_mod_self_left, Nat.mod_eq_of_lt hf]
    have h2 : (f + 2 ^ P.limb_size * limbSum P.limb_size fs) >>> P.limb_size =
        limbSum P.limb_size fs := by
      rw [Nat.shiftRight_eq_div_pow, Nat.add_mul_div_left _ _ (by positivity),
        Nat.div_eq_of_lt hf, Nat.zero_add]
    rw [h1, h2, @decompFields_limbSum P hm hp fs fun l hl => h l (List.mem_cons_of_mem _ hl)]

theorem toBigint_fromBigintNat {P : BigIntParameter} (hm : P.mask = 2 ^ P.limb_size - 1)
    (hp : 2 ^ P.limb_size ≤ fieldP) {x : ℕ} (hx : x < 2 ^ (P.limb_size * P.limb_num)) :
    toBigint P (fromBigintNat P x) = x := by
  unfold fromBigintNat
  rw [toBigint_eq_limbSum (by exact fun l hl => decompFields_limb_lt hm hp _ _ l hl)]
  rw [limbSum_decompFields hm hp, Nat.mod_eq_of_lt hx]

theorem fromBigintNat_fields_lt {P : BigIntParameter} (hm : P.mask = 2 ^ P.limb_size - 1)
    (hp : 2 ^ P.limb_size ≤ fieldP) (x : ℕ) :
    ∀ l ∈ (fromBigintNat P x).fields, l < 2 ^ P.limb_size :=
  fun l hl => decompFields_limb_lt hm hp _ _ l hl

theorem fromBigintNat_fields_length {P : BigIntParameter} (x : ℕ) :
    (fromBigintNat P x).fields.length = P.limb_num :=
  decompFields_length P _ _

/-! ### Claims C5, C7, C8 -/

/-- C5 (counterexample): the table entry `"576_9"` violates the claimed
invariant `MAX = 2^(limb_num * limb_size) - 1`: its `MAX` is `2^512 - 1`
while `limb_num * limb_size = 576`. -/
theorem C5_params_counterexample :
    ("576_9", BigIntParams_576_9) ∈ BigIntParams ∧
    BigIntParams_576_9.MAX ≠
      2 ^ (BigIntParams_576_9.limb_num * BigIntParams_576_9.limb_size) - 1 := by
  decide

/-- C5 (amended): every entry of `BigIntParams` satisfies
`mask = 2^limb_size - 1`; the invariant `MAX = 2^(limb_num * limb_size) - 1`
holds for every entry except `"384_9"`, `"576_9"`, `"2048_16"` and
`"2048_8"`, whose `MAX` values are `2^384 - 1`, `2^512 - 1`, `2^2048 - 1`
and `2^2048 - 1` respectively. -/
theorem C5_params_invariants (e : String × BigIntParameter) (he : e ∈ BigIntParams) :
    e.2.mask = 2 ^ e.2.limb_size - 1 ∧
    (e.1 ∉ (["384_9", "576_9", "2048_16", "2048_8"] : List String) →
      e.2.MAX = 2 ^ (e.2.limb_num * e.2.limb_size) - 1) ∧
    (e.1 = "384_9" → e.2.MAX = 2 ^ 384 - 1) ∧
    (e.1 = "576_9" → e.2.MAX = 2 ^ 512 - 1) ∧
    (e.1 = "2048_16" → e.2.MAX = 2 ^ 2048 - 1) ∧
    (e.1 = "2048_8" → e.2.MAX = 2 ^ 2048 - 1) := by
  fin_cases he <;>
    refine ⟨by decide, ?_, ?_, ?_, ?_, ?_⟩ <;>
    intro h <;>
    first
      | decide
      | exact absurd h (by decide)
      | exact absurd (by decide) h

/-- C5 (witness): the amended invariant instantiated at the `"384_12"`
entry. -/
theorem C5_params_invariants_witness :
    BigIntParams_384_12.mask = 2 ^ BigIntParams_384_12.limb_size - 1 ∧
    ("384_12" ∉ (["384_9", "576_9", "2048_16", "2048_8"] : List String) →
      BigIntParams_384_12.MAX =
        2 ^ (BigIntParams_384_12.limb_num * BigIntParams_384_12.limb_size) - 1) ∧
    ("384_12" = "384_9" → BigIntParams_384_12.MAX = 2 ^ 384 - 1) ∧
    ("384_12" = "576_9" → BigIntParams_384_12.MAX = 2 ^ 512 - 1) ∧
    ("384_12" = "2048_16" → BigIntParams_384_12.MAX = 2 ^ 2048 - 1) ∧
    ("384_12" = "2048_8" → BigIntParams_384_12.MAX = 2 ^ 2048 - 1) :=
  C5_params_invariants ("384_12", BigIntParams_384_12) (by decide)

/-- C7 (counterexample): with the table entry `"2048_16"` (whose `MAX`,
`2^2048 - 1`, exceeds the capacity `2^(16*64) - 1` of its limbs), the
in-range input `2^1024` round-trips to `0`, not to itself. -/
theorem C7_roundtrip_counterexample :
    ((2 ^ 1024 : ℕ) : ℤ) ≤ (BigIntParams_2048_16.MAX : ℤ) ∧
    (fromBigintChecked BigIntParams_2048_16 ((2 ^ 1024 : ℕ) : ℤ)).map
      (toBigint BigIntParams_2048_16) = some 0 ∧ (0 : ℕ) ≠ 2 ^ 1024 := by
  refine ⟨by exact_mod_cast Nat.le_of_lt_succ (by decide), ?_, by decide⟩
  unfold fromBigintChecked
  rw [if_neg (by omega), Int.toNat_natCast]
  decide

/-- C7 (amended): for every parameter set whose `mask` is `2^limb_size - 1`
and whose limbs fit the field, and every integer `x` with `0 ≤ x ≤ MAX`
that moreover fits the limb capacity `x < 2^(limb_size * limb_num)`,
`fromBigint(x).toBigint() = x`.  (For every table entry except `"2048_16"`
and `"2048_8"` the capacity bound is implied by `x ≤ MAX`.) -/
theorem C7_roundtrip_amended (P : BigIntParameter) (x : ℕ)
    (hm : P.mask = 2 ^ P.limb_size - 1) (hp : 2 ^ P.limb_size ≤ fieldP)
    (hmax : x ≤ P.MAX) (hcap : x < 2 ^ (P.limb_size * P.limb_num)) :
    (fromBigintChecked P (x : ℤ)).map (toBigint P) = some x := by
  unfold fromBigintChecked fromBigintNatChecked
  rw [if_neg (by omega), Int.toNat_natCast, if_neg (by omega)]
  simp [toBigint_fromBigintNat hm hp hcap]

/-- C7 (witness): the amended round trip instantiated at the `"384_9"`
entry and `x = 2^384 - 1 = MAX`. -/
theorem C7_roundtrip_amended_witness :
    (fromBigintChecked BigIntParams_384_9 ((2 ^ 384 - 1 : ℕ) : ℤ)).map
      (toBigint BigIntParams_384_9) = some (2 ^ 384 - 1) :=
  C7_roundtrip_amended BigIntParams_384_9 (2 ^ 384 - 1) (by decide) (by decide)
    (by decide) (by decide)

/-- C8: `fromBigint(x)` fails (throws) exactly when `x < 0` or `x > MAX`;
for any other input it returns a value. -/
theorem C8_fromBigint_bounds (P : BigIntParameter) (x : ℤ) :
    fromBigintChecked P x = none ↔ (x < 0 ∨ (P.MAX : ℤ) < x) := by
  unfold fromBigintChecked fromBigintNatChecked
  by_cases h1 : x < 0
  · simp [h1]
  · rw [if_neg h1]
    by_cases h2 : P.MAX < x.toNat
    · rw [if_pos h2]
      constructor
      · intro _; omega
      · intro _; rfl
    · rw [if_neg h2]
      constructor
      · intro h; simp at h
      · intro h; exfalso; omega

/-! ### Claim C9: the comparator family -/

theorem gtFold_self (xs : List ℕ) : ∀ r : Bool, gtFold xs xs r = r := by
  induction xs with
  | nil => intro r; rfl
  | cons x xs ih =>
    intro r
    show gtFold xs xs (decide (x < x) || (r && decide (x = x))) = r
    rw [ih]
    simp

theorem ltFold_self (xs : List ℕ) : ∀ r : Bool, ltFold xs xs r = r := by
  induction xs with
  | nil => intro r; rfl
  | cons x xs ih =>
    intro r
    show ltFold xs xs (decide (x < x) || (r && decide (x = x))) = r
    rw [ih]
    simp

theorem gtFold_ltFold_ne : ∀ (xs ys : List ℕ), xs.length = ys.length → xs ≠ ys →
    ∀ r s : Bool, (gtFold xs ys r = true ∧ ltFold xs ys s = false) ∨
      (gtFold xs ys r = false ∧ ltFold xs ys s = true) := by
  intro xs
  induction xs with
  | nil =>
    intro ys hl hne
    cases ys with
    | nil => exact absurd rfl hne
    | cons y ys => simp at hl
  | cons x xs ih =>
    intro ys hl hne
    cases ys with
    | nil => simp at hl
    | cons y ys =>
      intro r s
      simp only [gtFold, ltFold]
      by_cases htl : xs = ys
      · subst htl
        have hxy : x ≠ y := fun h => hne (by rw [h])
        rcases Nat.lt_or_ge x y with h | h
        · right
          rw [gtFold_self, ltFold_self]
          simp [hxy, h, Nat.lt_asymm h]
        · have h2 : y < x := lt_of_le_of_ne h (Ne.symm hxy)
          left
          rw [gtFold_self, ltFold_self]
          simp [hxy, h2, Nat.lt_asymm h2]
      · exact ih ys (by simpa using hl) htl _ _

/-- C9: for values whose limbs are in range, exactly one of `greaterThan`,
`lessThan`, `equals` holds, and `greaterThanOrEqual` is
`greaterThan OR equals`. -/
theorem C9_comparator_consistency (P : BigIntParameter) (a b : ProvableBigInt)
    (hlen : a.fields.length = b.fields.length)
    (ha : ∀ l ∈ a.fields, l ≤ P.mask) (hb : ∀ l ∈ b.fields, l ≤ P.mask) :
    ((greaterThanB a b = true ∧ lessThanB a b = false ∧ equalsB a b = false) ∨
     (greaterThanB a b = false ∧ lessThanB a b = true ∧ equalsB a b = false) ∨
     (greaterThanB a b = false ∧ lessThanB a b = false ∧ equalsB a b = true)) ∧
    greaterThanOrEqualB a b = (greaterThanB a b || equalsB a b) := by
  refine ⟨?_, rfl⟩
  by_cases heq : a.fields = b.fields
  · right; right
    unfold greaterThanB lessThanB equalsB
    rw [heq, gtFold_self, ltFold_self]
    simp
  · rcases gtFold_ltFold_ne a.fields b.fields hlen heq false false with ⟨h1, h2⟩ | ⟨h1, h2⟩
    · left
      exact ⟨h1, h2, by simp [equalsB, heq]⟩
    · right; left
      exact ⟨h1, h2, by simp [equalsB, heq]⟩

/-- C9 (witness): comparator consistency at the `"384_6"` parameters with
`a = 5`, `b = 7`. -/
theorem C9_comparator_consistency_witness :
    ((greaterThanB (fromBigintNat BigIntParams_384_6 5) (fromBigintNat BigIntParams_384_6 7) = true ∧
      lessThanB (fromBigintNat BigIntParams_384_6 5) (fromBigintNat BigIntParams_384_6 7) = false ∧
      equalsB (fromBigintNat BigIntParams_384_6 5) (fromBigintNat BigIntParams_384_6 7) = false) ∨
     (greaterThanB (fromBigintNat BigIntParams_384_6 5) (fromBigintNat BigIntParams_384_6 7) = false ∧
      lessThanB (fromBigintNat BigIntParams_384_6 5) (fromBigintNat BigIntParams_384_6 7) = true ∧
      equalsB (fromBigintNat BigIntParams_384_6 5) (fromBigintNat BigIntParams_384_6 7) = false) ∨
     (greaterThanB (fromBigintNat BigIntParams_384_6 5) (fromBigintNat BigIntParams_384_6 7) = false ∧
      lessThanB (fromBigintNat BigIntParams_384_6 5) (fromBigintNat BigIntParams_384_6 7) = false ∧
      equalsB (fromBigintNat BigIntParams_384_6 5) (fromBigintNat BigIntParams_384_6 7) = true)) ∧
    greaterThanOrEqualB (fromBigintNat BigIntParams_384_6 5) (fromBigintNat BigIntParams_384_6 7) =
      (greaterThanB (fromBigintNat BigIntParams_384_6 5) (fromBigintNat BigIntParams_384_6 7) ||
       equalsB (fromBigintNat BigIntParams_384_6 5) (fromBigintNat BigIntParams_384_6 7)) :=
  C9_comparator_consistency BigIntParams_384_6 _ _ (by decide) (by decide) (by decide)

/-! ### Claim C10: the rangeCheck dispatcher -/

/-- C10: `rangeCheck` emits bounding constraints only for the widths 32, 48,
64, 116, 128, 192 (for each of those, some value fails it); for any other
width every value passes unchecked, and consequently `add`/`sub` at such a
limb width never abort, i.e. their result limbs are not range-checked. -/
theorem C10_rangeCheck_dispatch :
    (∀ bits x : ℕ, bits ∉ ([32, 48, 64, 116, 128, 192] : List ℕ) →
      rangeCheckOk x bits = true) ∧
    (∀ w ∈ ([32, 48, 64, 116, 128, 192] : List ℕ), rangeCheckOk (2 ^ w) w = false) ∧
    (∀ (P : BigIntParameter) (me a b : ProvableBigInt),
      P.limb_size ∉ ([32, 48, 64, 116, 128, 192] : List ℕ) →
      (addChecked P me a b).isSome ∧ (subChecked P me a b).isSome) := by
  have hdef : ∀ bits x : ℕ, bits ∉ ([32, 48, 64, 116, 128, 192] : List ℕ) →
      rangeCheckOk x bits = true := by
    intro bits x h
    simp only [List.mem_cons, List.not_mem_nil, or_false, not_or] at h
    obtain ⟨h1, h2, h3, h4, h5, h6⟩ := h
    unfold rangeCheckOk
    rw [if_neg h1, if_neg h2, if_neg h3, if_neg h4, if_neg h5, if_neg h6]
  refine ⟨hdef, by decide, ?_⟩
  intro P me a b h
  have hall : ∀ s : List ℕ, s.all (fun l => rangeCheckOk l P.limb_size) = true := by
    intro s
    rw [List.all_eq_true]
    exact fun l _ => hdef P.limb_size l h
  constructor
  · simp [addChecked, hall]
  · simp [subChecked, hall]

/-- C10 (witness): a width outside the dispatch set (65, as would arise
from a custom parameter with 65-bit limbs) passes an out-of-range value,
and `add` at such a parameter set never aborts. -/
theorem C10_rangeCheck_dispatch_witness :
    rangeCheckOk (2 ^ 200) 65 = true ∧
    (addChecked ⟨2, 65, 2 ^ 65 - 1, 2 ^ 130 - 1⟩ ⟨[0, 0], 0⟩ ⟨[0, 0], 0⟩ ⟨[0, 0], 0⟩).isSome :=
  ⟨C10_rangeCheck_dispatch.1 65 (2 ^ 200) (by decide),
   (C10_rangeCheck_dispatch.2.2 ⟨2, 65, 2 ^ 65 - 1, 2 ^ 130 - 1⟩ ⟨[0, 0], 0⟩ ⟨[0, 0], 0⟩
     ⟨[0, 0], 0⟩ (by decide)).1⟩

/-! ### Claims C2, C3, C4 (code evaluated at failing inputs) and the C6
counterexample -/

/-- C2 (code evaluated at the failing input): with modulus 11 and operands
5 and 6 — both below the modulus, as the claim requires — `add` returns a
value decoding to 11, whereas `(5 + 6) mod 11 = 0`: the raw sum equals the
modulus and the `isGreaterOrEqual` accumulation misses the equality case,
so no subtraction is applied.  With operands 5 and 7 the result is 1, as
the claim's concrete instance states. -/
theorem C2_add_failing_input :
    (addChecked BigIntParams_384_6 (fromBigintNat BigIntParams_384_6 11)
      (fromBigintNat BigIntParams_384_6 5) (fromBigintNat BigIntParams_384_6 6)).map
      (toBigint BigIntParams_384_6) = some 11 ∧
    (5 + 6) % 11 = 0 ∧
    (addChecked BigIntParams_384_6 (fromBigintNat BigIntParams_384_6 11)
      (fromBigintNat BigIntParams_384_6 5) (fromBigintNat BigIntParams_384_6 7)).map
      (toBigint BigIntParams_384_6) = some 1 := by
  decide

/-- C3 (code evaluated at the failing input): with modulus 10, `mod(17)`
aborts instead of returning 7.  `div` asserts
`equals(add(mul(q, this), r), a)`; `mul(q, this)` is `q * this mod this = 0`
and `add(0, r)` is `7`, but `a` is `17`, so the final `assertTrue` fails
(the repository's own test expects `mod(17) = 7`). -/
theorem C3_mod_failing_input :
    modChecked BigIntParams_384_6 (fromBigintNat BigIntParams_384_6 10)
      (fromBigintNat BigIntParams_384_6 17) = none ∧
    toBigint BigIntParams_384_6 (fromBigintNat BigIntParams_384_6 17) %
      toBigint BigIntParams_384_6 (fromBigintNat BigIntParams_384_6 10) = 7 := by
  decide

/-- C4 (code evaluated at the failing input): in `add` with modulus `2^64`
and operands 5 and 0, the summation loop yields limbs encoding 5, which is
smaller than the modulus value `2^64`, yet the `isGreaterOrEqual`
accumulation returns `true` (the low limb 5 exceeds the modulus's low limb
0); and when the raw sum equals the modulus (11 against 11) the
accumulation returns `false` although a `≥` comparison requires `true`. -/
theorem C4_isGreaterOrEqual_failing_input :
    addGEFold
      (addLimbs BigIntParams_384_6.mask (fromBigintNat BigIntParams_384_6 5).fields
        (fromBigintNat BigIntParams_384_6 0).fields 0)
      (fromBigintNat BigIntParams_384_6 (2 ^ 64)).fields false = true ∧
    toBigintAux BigIntParams_384_6.limb_size
      (addLimbs BigIntParams_384_6.mask (fromBigintNat BigIntParams_384_6 5).fields
        (fromBigintNat BigIntParams_384_6 0).fields 0) 0 0 = 5 ∧
    (5 : ℕ) < toBigint BigIntParams_384_6 (fromBigintNat BigIntParams_384_6 (2 ^ 64)) ∧
    addGEFold (fromBigintNat BigIntParams_384_6 11).fields
      (fromBigintNat BigIntParams_384_6 11).fields false = false := by
  decide

/-- C6 (counterexample): the claim quantifies over every modulus and both
operands, but with modulus 10, `div(17, 3)` (a nonzero divisor) aborts on
the division-identity assertion instead of returning quotient 5 and
remainder 2: `add(mul(q, b), r)` reduces modulo 10 to 7, which differs from
`a = 17`. -/
theorem C6_div_counterexample :
    divChecked BigIntParams_384_6 (fromBigintNat BigIntParams_384_6 10)
      (fromBigintNat BigIntParams_384_6 17) (fromBigintNat BigIntParams_384_6 3) = none ∧
    toBigint BigIntParams_384_6 (fromBigintNat BigIntParams_384_6 3) ≠ 0 := by
  decide

/-! ### The add engine on in-range inputs -/

theorem split_recombine {x k : ℕ} (hx : x < fieldP) (hk : 2 ^ k < fieldP) :
    fadd (x % 2 ^ k) (fmul (x / 2 ^ k) (fofn (2 ^ k))) = x := by
  rw [fofn_eq_of_lt hk,
    fmul_eq_of_lt (lt_of_le_of_lt (Nat.div_mul_le_self x _) hx),
    fadd_eq_of_lt (by rw [Nat.mod_add_div']; exact hx)]
  exact Nat.mod_add_div' x (2 ^ k)

theorem rangeCheck48ok_of_lt {x : ℕ} (h : x < 2 ^ 48) : rangeCheck48ok x = true := by
  have hx : x < fieldP := lt_of_lt_of_le h (by decide)
  simp only [rangeCheck48ok, rc32, rc16, Nat.shiftLeft_eq, one_mul,
    Nat.and_pow_two_sub_one_eq_mod, Nat.shiftRight_eq_div_pow]
  rw [split_recombine hx (by decide)]
  have h1 : x % 2 ^ 32 < 2 ^ 32 := Nat.mod_lt _ (by positivity)
  have h2 : x / 2 ^ 32 < 2 ^ 16 := by
    rw [Nat.div_lt_iff_lt_mul (by positivity)]
    calc x < 2 ^ 48 := h
      _ = 2 ^ 16 * 2 ^ 32 := by norm_num
  simp only [Bool.and_eq_true, decide_eq_true_eq]
  exact ⟨⟨h1, h2⟩, trivial⟩

theorem rangeCheck116ok_of_lt {x : ℕ} (h : x < 2 ^ 116) : rangeCheck116ok x = true := by
  have hx : x < fieldP := lt_of_lt_of_le h (by decide)
  simp only [rangeCheck116ok, rc64, Nat.shiftLeft_eq, one_mul,
    Nat.and_pow_two_sub_one_eq_mod, Nat.shiftRight_eq_div_pow]
  rw [split_recombine hx (by decide)]
  have h1 : x % 2 ^ 64 < 2 ^ 64 := Nat.mod_lt _ (by positivity)
  have h2 : x / 2 ^ 64 < 2 ^ 52 := by
    rw [Nat.div_lt_iff_lt_mul (by positivity)]
    calc x < 2 ^ 116 := h
      _ = 2 ^ 52 * 2 ^ 64 := by norm_num
  have h3 : x / 2 ^ 64 < 2 ^ 64 := lt_trans h2 (by norm_num)
  have h4 : x / 2 ^ 64 / 2 ^ 52 = 0 := Nat.div_eq_of_lt h2
  simp only [Bool.and_eq_true, decide_eq_true_eq]
  exact ⟨⟨⟨h1, h3⟩, by rw [h4]⟩, trivial⟩

theorem rangeCheck128ok_of_lt {x : ℕ} (h : x < 2 ^ 128) : rangeCheck128ok x = true := by
  have hx : x < fieldP := lt_of_lt_of_le h (by decide)
  simp only [rangeCheck128ok, rc64, Nat.shiftLeft_eq, one_mul,
    Nat.and_pow_two_sub_one_eq_mod, Nat.shiftRight_eq_div_pow]
  rw [split_recombine hx (by decide)]
  have h1 : x % 2 ^ 64 < 2 ^ 64 := Nat.mod_lt _ (by positivity)
  have h2 : x / 2 ^ 64 < 2 ^ 64 := by
    rw [Nat.div_lt_iff_lt_mul (by positivity)]
    calc x < 2 ^ 128 := h
      _ = 2 ^ 64 * 2 ^ 64 := by norm_num
  simp only [Bool.and_eq_true, decide_eq_true_eq]
  exact ⟨⟨h1, h2⟩, trivial⟩

theorem rangeCheck192ok_of_lt {x : ℕ} (h : x < 2 ^ 192) : rangeCheck192ok x = true := by
  have hx : x < fieldP := lt_of_lt_of_le h (by decide)
  simp only [rangeCheck192ok, rc64, Nat.shiftLeft_eq, one_mul,
    Nat.and_pow_two_sub_one_eq_mod, Nat.shiftRight_eq_div_pow]
  have h1 : x % 2 ^ 64 < 2 ^ 64 := Nat.mod_lt _ (by positivity)
  have h2 : x / 2 ^ 64 % 2 ^ 64 < 2 ^ 64 := Nat.mod_lt _ (by positivity)
  have h3 : x / 2 ^ 128 < 2 ^ 64 := by
    rw [Nat.div_lt_iff_lt_mul (by positivity)]
    calc x < 2 ^ 192 := h
      _ = 2 ^ 64 * 2 ^ 128 := by norm_num
  have e1 : x / 2 ^ 64 % 2 ^ 64 * 2 ^ 64 < fieldP := by
    have h5 : x / 2 ^ 64 % 2 ^ 64 * 2 ^ 64 < 2 ^ 64 * 2 ^ 64 :=
      (Nat.mul_lt_mul_right (show 0 < (2 : ℕ) ^ 64 by positivity)).mpr h2
    have h6 : (2 : ℕ) ^ 64 * 2 ^ 64 < fieldP := by decide
    omega
  have e2 : x % 2 ^ 64 + x / 2 ^ 64 % 2 ^ 64 * 2 ^ 64 = x % 2 ^ 128 := by
    have hsplit : x % (2 ^ 64 * 2 ^ 64) = x % 2 ^ 64 + 2 ^ 64 * (x / 2 ^ 64 % 2 ^ 64) :=
      Nat.mod_mul
    have hpow : (2 : ℕ) ^ 128 = 2 ^ 64 * 2 ^ 64 := by norm_num
    rw [hpow, hsplit]
    ring
  have k1 : fmul (x / 2 ^ 64 % 2 ^ 64) (fofn (2 ^ 64)) = x / 2 ^ 64 % 2 ^ 64 * 2 ^ 64 := by
    rw [fofn_eq_of_lt (by decide)]
    exact fmul_eq_of_lt e1
  have k2 : fadd (x % 2 ^ 64) (x / 2 ^ 64 % 2 ^ 64 * 2 ^ 64) = x % 2 ^ 128 := by
    rw [fadd_eq_of_lt (by rw [e2]; exact lt_of_le_of_lt (Nat.mod_le _ _) hx), e2]
  have k3 : fmul (x / 2 ^ 128) (fofn (2 ^ 128)) = x / 2 ^ 128 * 2 ^ 128 := by
    rw [fofn_eq_of_lt (by decide)]
    exact fmul_eq_of_lt (lt_of_le_of_lt (Nat.div_mul_le_self x _) hx)
  have k4 : fadd (x % 2 ^ 128) (x / 2 ^ 128 * 2 ^ 128) = x := by
    rw [fadd_eq_of_lt (by rw [Nat.mod_add_div']; exact hx), Nat.mod_add_div']
  rw [k1, k2, k3, k4]
  simp only [Bool.and_eq_true, decide_eq_true_eq]
  exact ⟨⟨⟨h1, h2⟩, h3⟩, trivial⟩

theorem rangeCheckOk_of_lt {ls x : ℕ} (h : x < 2 ^ ls) : rangeCheckOk x ls = true := by
  unfold rangeCheckOk
  split_ifs with h1 h2 h3 h4 h5 h6
  · subst h1; simp only [rc32, decide_eq_true_eq]; omega
  · subst h2; exact rangeCheck48ok_of_lt h
  · subst h3; simp only [rc64, decide_eq_true_eq]; omega
  · subst h4; exact rangeCheck116ok_of_lt h
  · subst h5; exact rangeCheck128ok_of_lt h
  · subst h6; exact rangeCheck192ok_of_lt h
  · rfl

theorem addLimbs_decomp {P : BigIntParameter} (hm : P.mask = 2 ^ P.limb_size - 1)
    (hp2 : 2 ^ (P.limb_size + 1) ≤ fieldP) :
    ∀ (n u v c : ℕ), c ≤ 1 → u + v + c < 2 ^ (P.limb_size * n) →
    addLimbs P.mask (decompFields P n u) (decompFields P n v) c =
      decompFields P n (u + v + c)
  | 0, u, v, c, _, _ => rfl
  | n + 1, u, v, c, hc, hbound => by
    have hdouble : (2 : ℕ) ^ (P.limb_size + 1) = 2 * 2 ^ P.limb_size := by ring
    have hB0 : (0 : ℕ) < 2 ^ P.limb_size := by positivity
    have hBp : (2 : ℕ) ^ P.limb_size < fieldP := by omega
    have hBle : (2 : ℕ) ^ P.limb_size ≤ fieldP := le_of_lt hBp
    have hmaskp : P.mask < fieldP := by omega
    rw [decompFields_limb_eq hm hBle, decompFields_limb_eq hm hBle,
      decompFields_limb_eq hm hBle]
    simp only [addLimbs]
    have hu0 : u % 2 ^ P.limb_size < 2 ^ P.limb_size := Nat.mod_lt _ hB0
    have hv0 : v % 2 ^ P.limb_size < 2 ^ P.limb_size := Nat.mod_lt _ hB0
    have e1 : fadd (u % 2 ^ P.limb_size) (v % 2 ^ P.limb_size) =
        u % 2 ^ P.limb_size + v % 2 ^ P.limb_size := fadd_eq_of_lt (by omega)
    rw [e1]
    have e2 : fadd (u % 2 ^ P.limb_size + v % 2 ^ P.limb_size) c =
        u % 2 ^ P.limb_size + v % 2 ^ P.limb_size + c := fadd_eq_of_lt (by omega)
    rw [e2]
    have hsumdecomp : u + v + c =
        (u % 2 ^ P.limb_size + v % 2 ^ P.limb_size + c) +
          2 ^ P.limb_size * (u / 2 ^ P.limb_size + v / 2 ^ P.limb_size) := by
      conv_lhs => rw [← Nat.mod_add_div u (2 ^ P.limb_size),
        ← Nat.mod_add_div v (2 ^ P.limb_size)]
      ring
    have hmod : (u + v + c) % 2 ^ P.limb_size =
        (u % 2 ^ P.limb_size + v % 2 ^ P.limb_size + c) % 2 ^ P.limb_size := by
      rw [hsumdecomp, Nat.add_mul_mod_self_left]
    have hdiv : (u + v + c) / 2 ^ P.limb_size =
        (u % 2 ^ P.limb_size + v % 2 ^ P.limb_size + c) / 2 ^ P.limb_size +
          (u / 2 ^ P.limb_size + v / 2 ^ P.limb_size) := by
      rw [hsumdecomp, Nat.add_mul_div_left _ _ hB0]
    have hpow : (2 : ℕ) ^ (P.limb_size * (n + 1)) = 2 ^ (P.limb_size * n) * 2 ^ P.limb_size := by
      rw [← Nat.pow_add]
      ring_nf
    have hdivbound : (u + v + c) / 2 ^ P.limb_size < 2 ^ (P.limb_size * n) := by
      rw [Nat.div_lt_iff_lt_mul hB0, ← hpow]
      exact hbound
    rw [Nat.shiftRight_eq_div_pow, Nat.shiftRight_eq_div_pow, Nat.shiftRight_eq_div_pow]
    by_cases hcar : 2 ^ P.limb_size ≤ u % 2 ^ P.limb_size + v % 2 ^ P.limb_size + c
    · rw [if_pos (by rw [fofn_eq_of_lt hmaskp]; omega)]
      have hm1 : P.mask + 1 = 2 ^ P.limb_size := by omega
      rw [hm1, fofn_eq_of_lt hBp]
      have hmul1 : fmul 1 (2 ^ P.limb_size) = 2 ^ P.limb_size := by
        unfold fmul
        rw [one_mul]
        exact Nat.mod_eq_of_lt hBp
      rw [hmul1, fsub_eq_of_le hcar (by omega)]
      have hsum1 : (u % 2 ^ P.limb_size + v % 2 ^ P.limb_size + c) / 2 ^ P.limb_size = 1 := by
        have h9 : u % 2 ^ P.limb_size + v % 2 ^ P.limb_size + c =
            2 ^ P.limb_size + (u % 2 ^ P.limb_size + v % 2 ^ P.limb_size + c -
              2 ^ P.limb_size) := by omega
        rw [h9, Nat.add_div_left _ hB0, Nat.div_eq_of_lt (by omega)]
      have hhead : u % 2 ^ P.limb_size + v % 2 ^ P.limb_size + c - 2 ^ P.limb_size =
          (u + v + c) % 2 ^ P.limb_size := by
        rw [hmod, Nat.mod_eq_sub_mod hcar]
        exact (Nat.mod_eq_of_lt (by omega)).symm
      have htail : u / 2 ^ P.limb_size + v / 2 ^ P.limb_size + 1 =
          (u + v + c) / 2 ^ P.limb_size := by omega
      rw [addLimbs_decomp hm hp2 n (u / 2 ^ P.limb_size) (v / 2 ^ P.limb_size) 1
        (le_refl 1) (by omega), hhead, htail]
    · rw [if_neg (by rw [fofn_eq_of_lt hmaskp]; omega)]
      rw [fmul_zero, fsub_eq_of_le (Nat.zero_le _) (by omega), Nat.sub_zero]
      have hsum0 : (u % 2 ^ P.limb_size + v % 2 ^ P.limb_size + c) / 2 ^ P.limb_size = 0 :=
        Nat.div_eq_of_lt (by omega)
      have hhead : u % 2 ^ P.limb_size + v % 2 ^ P.limb_size + c =
          (u + v + c) % 2 ^ P.limb_size := by
        rw [hmod]
        exact (Nat.mod_eq_of_lt (by omega)).symm
      have htail : u / 2 ^ P.limb_size + v / 2 ^ P.limb_size + 0 =
          (u + v + c) / 2 ^ P.limb_size := by omega
      rw [addLimbs_decomp hm hp2 n (u / 2 ^ P.limb_size) (v / 2 ^ P.limb_size) 0
        (Nat.zero_le _) (by omega), hhead, htail]

theorem addGEFold_false : ∀ (xs ys : List ℕ),
    (∀ p ∈ xs.zip ys, p.1 ≤ p.2) → addGEFold xs ys false = false
  | [], ys, _ => by cases ys <;> rfl
  | x :: xs, [], _ => rfl
  | x :: xs, y :: ys, h => by
    have hxy : x ≤ y := h (x, y) (by simp [List.zip_cons_cons])
    show addGEFold xs ys ((false || decide (y < x)) || (decide (x = y) && false)) = false
    have e1 : ((false || decide (y < x)) || (decide (x = y) && false)) = false := by
      simp [Nat.not_lt.mpr hxy]
    rw [e1]
    exact addGEFold_false xs ys fun p hp => h p (by simp [List.zip_cons_cons, hp])

theorem addSubLoop_id {mask : ℕ} : ∀ (xs ys : List ℕ), (∀ l ∈ xs, l < fieldP) →
    xs.length ≤ ys.length → addSubLoop mask false xs ys 0 = xs
  | [], ys, _, _ => by cases ys <;> rfl
  | x :: xs, [], _, hl => by simp at hl
  | x :: xs, y :: ys, h, hl => by
    have hx : x < fieldP := h x (List.mem_cons_self _ _)
    simp only [addSubLoop, Bool.false_eq_true, if_false]
    have e0 : fmul y 0 = 0 := fmul_zero_right y
    have e1 : fsub x 0 = x := by
      rw [fsub_eq_of_le (Nat.zero_le x) hx]
      exact Nat.sub_zero x
    have e2 : fsub (fsub x (fmul y 0)) 0 = x := by rw [e0, e1, e1]
    rw [e2]
    have e3 : (if x < fofn 0 then 1 else 0) = 0 := by
      rw [if_neg]
      intro hcon
      exact absurd hcon (by unfold fofn; simp)
    rw [e3, fmul_zero]
    have e4 : fadd x 0 = x := by
      unfold fadd
      rw [Nat.add_zero]
      exact Nat.mod_eq_of_lt hx
    rw [e4]
    have := @addSubLoop_id mask xs ys
      (fun l hl2 => h l (List.mem_cons_of_mem _ hl2)) (by simpa using hl)
    rw [this]

/-- `add` on canonically decomposed in-range operands whose true sum is
limb-wise at most the modulus limbs: the result is the canonical
decomposition of the sum (no conditional subtraction fires). -/
theorem addChecked_eq {P : BigIntParameter} (hm : P.mask = 2 ^ P.limb_size - 1)
    (hp2 : 2 ^ (P.limb_size + 1) ≤ fieldP) (me a b : ProvableBigInt) (u v : ℕ)
    (ha : a.fields = decompFields P P.limb_num u)
    (hb : b.fields = decompFields P P.limb_num v)
    (hbound : u + v < 2 ^ (P.limb_size * P.limb_num))
    (hge : ∀ p ∈ (decompFields P P.limb_num (u + v)).zip me.fields, p.1 ≤ p.2)
    (hlen : P.limb_num ≤ me.fields.length) :
    addChecked P me a b = some ⟨decompFields P P.limb_num (u + v),
      (a.value + b.value).tmod me.value⟩ := by
  have hBle : (2 : ℕ) ^ P.limb_size ≤ fieldP := by
    have : (2 : ℕ) ^ (P.limb_size + 1) = 2 * 2 ^ P.limb_size := by ring
    omega
  have hs : addLimbs P.mask a.fields b.fields 0 = decompFields P P.limb_num (u + v) := by
    rw [ha, hb, addLimbs_decomp hm hp2 P.limb_num u v 0 (Nat.zero_le _) (by omega),
      Nat.add_zero]
  have hlimb : ∀ l ∈ decompFields P P.limb_num (u + v), l < 2 ^ P.limb_size :=
    fun l hl => decompFields_limb_lt hm hBle _ _ l hl
  have hrc : (decompFields P P.limb_num (u + v)).all
      (fun l => rangeCheckOk l P.limb_size) = true := by
    rw [List.all_eq_true]
    exact fun l hl => rangeCheckOk_of_lt (hlimb l hl)
  simp only [addChecked]
  rw [hs, if_pos hrc, addGEFold_false _ _ hge,
    addSubLoop_id _ _ (fun l hl => lt_of_lt_of_le (hlimb l hl) hBle)
      (by rw [decompFields_length]; exact hlen)]

/-! ### The multiplication gadget: casting the field embedding into
`ZMod fieldP` -/

theorem natCast_fofn (x : ℕ) : ((fofn x : ℕ) : ZMod fieldP) = (x : ZMod fieldP) :=
  ZMod.natCast_mod x fieldP

theorem natCast_fadd (x y : ℕ) :
    ((fadd x y : ℕ) : ZMod fieldP) = (x : ZMod fieldP) + (y : ZMod fieldP) := by
  unfold fadd
  rw [ZMod.natCast_mod, Nat.cast_add]

theorem natCast_fmul (x y : ℕ) :
    ((fmul x y : ℕ) : ZMod fieldP) = (x : ZMod fieldP) * (y : ZMod fieldP) := by
  unfold fmul
  rw [ZMod.natCast_mod, Nat.cast_mul]

theorem natCast_fsub (x y : ℕ) :
    ((fsub x y : ℕ) : ZMod fieldP) = (x : ZMod fieldP) - (y : ZMod fieldP) := by
  unfold fsub
  rw [ZMod.natCast_mod, Nat.cast_add,
    Nat.cast_sub (Nat.le_of_lt (Nat.mod_lt _ fieldP_pos)), ZMod.natCast_self,
    ZMod.natCast_mod]
  ring

/-- Proof-side weighted sum `Σ d[k] * B^k` of a limb list in `ZMod fieldP`,
in Horner form. -/
def zsum (B : ZMod fieldP) : List ℕ → ZMod fieldP
  | [] => 0
  | d :: ds => (d : ZMod fieldP) + B * zsum B ds

theorem zsum_replicate_zero (B : ZMod fieldP) : ∀ n, zsum B (List.replicate n 0) = 0
  | 0 => rfl
  | n + 1 => by
    simp only [List.replicate_succ, zsum, zsum_replicate_zero B n]
    simp

theorem zsum_set (B : ZMod fieldP) : ∀ (d : List ℕ) (k v : ℕ), k < d.length →
    zsum B (d.set k v) =
      zsum B d + (((v : ℕ) : ZMod fieldP) - ((d.getD k 0 : ℕ) : ZMod fieldP)) * B ^ k
  | [], k, v, h => by simp at h
  | x :: ds, 0, v, _ => by
    simp only [List.set, zsum, List.getD_cons_zero, pow_zero]
    ring
  | x :: ds, k + 1, v, h => by
    simp only [List.set, zsum, List.getD_cons_succ]
    rw [zsum_set B ds k v (by simpa using h)]
    ring

theorem zsum_append (B : ZMod fieldP) : ∀ (l m : List ℕ),
    zsum B (l ++ m) = zsum B l + B ^ l.length * zsum B m
  | [], m => by simp [zsum]
  | x :: l, m => by
    show (x : ZMod fieldP) + B * zsum B (l ++ m) = _
    rw [zsum_append B l m, List.length_cons]
    simp only [zsum]
    ring

theorem zsum_natCast (ls : ℕ) : ∀ fs : List ℕ,
    zsum (((2 ^ ls : ℕ) : ZMod fieldP)) fs = ((limbSum ls fs : ℕ) : ZMod fieldP)
  | [] => by simp [zsum, limbSum]
  | f :: fs => by
    simp only [zsum, limbSum]
    rw [zsum_natCast ls fs]
    push_cast
    ring

theorem mulAddLoop_length (xi : ℕ) : ∀ (ys : List ℕ) (k : ℕ) (d : List ℕ),
    (mulAddLoop xi ys k d).length = d.length
  | [], _, d => rfl
  | yj :: ys, k, d => by
    simp only [mulAddLoop]
    rw [mulAddLoop_length xi ys (k + 1), List.length_set]

theorem mulSubLoop_length (qi : ℕ) : ∀ (ps : List ℕ) (k : ℕ) (d : List ℕ),
    (mulSubLoop qi ps k d).length = d.length
  | [], _, d => rfl
  | pj :: ps, k, d => by
    simp only [mulSubLoop]
    rw [mulSubLoop_length qi ps (k + 1), List.length_set]

theorem mulOuter_length (Y Pf : List ℕ) : ∀ (xs qs rs : List ℕ) (i : ℕ) (d : List ℕ),
    (mulOuter Y Pf xs qs rs i d).length = d.length := by
  intro xs
  induction xs with
  | nil => intro qs rs i d; cases qs <;> cases rs <;> rfl
  | cons x xs ih =>
    intro qs rs i d
    cases qs with
    | nil => rfl
    | cons q qs =>
      cases rs with
      | nil => rfl
      | cons r rs =>
        simp only [mulOuter]
        rw [ih, List.length_set, mulSubLoop_length, mulAddLoop_length]

theorem mulAddLoop_zsum (β : ZMod fieldP) (xi : ℕ) : ∀ (ys : List ℕ) (k : ℕ) (d : List ℕ),
    k + ys.length ≤ d.length →
    zsum β (mulAddLoop xi ys k d) =
      zsum β d + ((xi : ℕ) : ZMod fieldP) * zsum β ys * β ^ k
  | [], k, d, _ => by simp [mulAddLoop, zsum]
  | yj :: ys, k, d, h => by
    simp only [mulAddLoop]
    have hk : k < d.length := by
      simp only [List.length_cons] at h
      omega
    rw [mulAddLoop_zsum β xi ys (k + 1) _
      (by rw [List.length_set]; simp only [List.length_cons] at h; omega)]
    rw [zsum_set β d k _ hk, natCast_fadd, natCast_fmul]
    simp only [zsum]
    ring

theorem mulSubLoop_zsum (β : ZMod fieldP) (qi : ℕ) : ∀ (ps : List ℕ) (k : ℕ) (d : List ℕ),
    k + ps.length ≤ d.length →
    zsum β (mulSubLoop qi ps k d) =
      zsum β d - ((qi : ℕ) : ZMod fieldP) * zsum β ps * β ^ k
  | [], k, d, _ => by simp [mulSubLoop, zsum]
  | pj :: ps, k, d, h => by
    simp only [mulSubLoop]
    have hk : k < d.length := by
      simp only [List.length_cons] at h
      omega
    rw [mulSubLoop_zsum β qi ps (k + 1) _
      (by rw [List.length_set]; simp only [List.length_cons] at h; omega)]
    rw [zsum_set β d k _ hk, natCast_fsub, natCast_fmul]
    simp only [zsum]
    ring

theorem mulOuter_zsum (β : ZMod fieldP) (Y Pf : List ℕ) (hYPf : Y.length = Pf.length)
    (hY : 0 < Y.length) : ∀ (xs qs rs : List ℕ) (i : ℕ) (d : List ℕ),
    xs.length = qs.length → xs.length = rs.length →
    i + xs.length + Y.length ≤ d.length + 1 →
    zsum β (mulOuter Y Pf xs qs rs i d) =
      zsum β d +
        (zsum β xs * zsum β Y - zsum β qs * zsum β Pf - zsum β rs) * β ^ i := by
  intro xs
  induction xs with
  | nil =>
    intro qs rs i d hq hr _
    rw [List.length_nil] at hq hr
    rw [List.eq_nil_of_length_eq_zero hq.symm, List.eq_nil_of_length_eq_zero hr.symm]
    simp [mulOuter, zsum]
  | cons x xs ih =>
    intro qs rs i d hq hr hbound
    cases qs with
    | nil => simp at hq
    | cons q qs =>
      cases rs with
      | nil => simp at hr
      | cons r rs =>
        simp only [mulOuter]
        simp only [List.length_cons] at hq hr hbound
        have hiY : i + Y.length ≤ d.length := by omega
        have hi : i < d.length := by omega
        have l1 : (mulAddLoop x Y i d).length = d.length := mulAddLoop_length _ _ _ _
        have l2 : (mulSubLoop q Pf i (mulAddLoop x Y i d)).length = d.length := by
          rw [mulSubLoop_length, l1]
        rw [ih qs rs (i + 1) _ (by omega) (by omega)
          (by rw [List.length_set, l2]; omega)]
        rw [zsum_set β _ i _ (by rw [l2]; exact hi), natCast_fsub]
        rw [mulSubLoop_zsum β q Pf i _ (by rw [l1]; omega)]
        rw [mulAddLoop_zsum β x Y i d hiY]
        simp only [zsum]
        ring

theorem mulDelta_length (P : BigIntParameter) (X Y Q R Pf : List ℕ) :
    (mulDelta P X Y Q R Pf).length = 2 * P.limb_num - 1 := by
  unfold mulDelta
  rw [mulOuter_length, List.length_replicate]

theorem mulDelta_zsum {P : BigIntParameter} (β : ZMod fieldP) (X Y Q R Pf : List ℕ)
    (hX : X.length = P.limb_num) (hY : Y.length = P.limb_num)
    (hQ : Q.length = P.limb_num) (hR : R.length = P.limb_num)
    (hPf : Pf.length = P.limb_num) (hn : 0 < P.limb_num) :
    zsum β (mulDelta P X Y Q R Pf) =
      zsum β X * zsum β Y - zsum β Q * zsum β Pf - zsum β R := by
  unfold mulDelta
  rw [mulOuter_zsum β Y Pf (by omega) (by omega) X Q R 0 _ (by omega) (by omega)
    (by rw [List.length_replicate]; omega)]
  rw [zsum_replicate_zero]
  simp

theorem fdiv_mul_cancel {B dpc : ℕ} (hinv : (B * finv B) % fieldP = 1)
    (hd : dpc < fieldP) : fmul (fdiv dpc B) B = dpc := by
  unfold fdiv fmul
  rw [Nat.mod_mul_mod, Nat.mul_assoc, Nat.mul_mod, Nat.mul_comm (finv B) B, hinv,
    Nat.mod_eq_of_lt hd, Nat.mul_one, Nat.mod_eq_of_lt hd]

theorem natCast_inv_mul {B : ℕ} (hinv : (B * finv B) % fieldP = 1) :
    ((B : ℕ) : ZMod fieldP) * ((finv B : ℕ) : ZMod fieldP) = 1 := by
  have h4 := congrArg (fun t : ℕ => (t : ZMod fieldP)) hinv
  simpa [ZMod.natCast_mod, Nat.cast_mul] using h4

/-- The carry loop of `mul` never fails (each step's `assertEquals` compares
`deltaPlusCarry` with the witnessed field quotient times the divisor, which
is an identity of field division), and the final carry satisfies
`carry * B^steps = initial + Σ delta[i] * B^i` in the field. -/
theorem carryChain_spec {B : ℕ} (hinv : (B * finv B) % fieldP = 1) :
    ∀ (ds : List ℕ) (c : ℕ), c < fieldP →
    ∃ c2, carryChain B ds c = some c2 ∧ c2 < fieldP ∧
      (c2 : ZMod fieldP) * ((B : ℕ) : ZMod fieldP) ^ ds.length =
        (c : ZMod fieldP) + zsum ((B : ℕ) : ZMod fieldP) ds
  | [], c, hc => ⟨c, rfl, hc, by simp [zsum, carryChain]⟩
  | d :: ds, c, hc => by
    have hd : fadd d c < fieldP := fadd_lt d c
    have hstep := fdiv_mul_cancel hinv hd
    obtain ⟨c2, h1, h2, h3⟩ := carryChain_spec hinv ds (fdiv (fadd d c) B) (fmul_lt _ _)
    refine ⟨c2, ?_, h2, ?_⟩
    · show (if fadd d c = fmul (fdiv (fadd d c) B) B
          then carryChain B ds (fdiv (fadd d c) B) else none) = some c2
      rw [hstep, if_pos rfl, h1]
    · have e5 : ((fdiv (fadd d c) B : ℕ) : ZMod fieldP) =
          ((d : ZMod fieldP) + (c : ZMod fieldP)) * ((finv B : ℕ) : ZMod fieldP) := by
        unfold fdiv
        rw [natCast_fmul, natCast_fadd]
      have hBι := natCast_inv_mul hinv
      rw [List.length_cons, pow_succ]
      calc (c2 : ZMod fieldP) * (((B : ℕ) : ZMod fieldP) ^ ds.length * ((B : ℕ) : ZMod fieldP))
          = ((c2 : ZMod fieldP) * ((B : ℕ) : ZMod fieldP) ^ ds.length) *
              ((B : ℕ) : ZMod fieldP) := by ring
        _ = (((fdiv (fadd d c) B : ℕ) : ZMod fieldP) +
              zsum ((B : ℕ) : ZMod fieldP) ds) * ((B : ℕ) : ZMod fieldP) := by rw [h3]
        _ = ((d : ZMod fieldP) + (c : ZMod fieldP)) *
              (((B : ℕ) : ZMod fieldP) * ((finv B : ℕ) : ZMod fieldP)) +
              ((B : ℕ) : ZMod fieldP) * zsum ((B : ℕ) : ZMod fieldP) ds := by
            rw [e5]; ring
        _ = (c : ZMod fieldP) + zsum ((B : ℕ) : ZMod fieldP) (d :: ds) := by
            rw [hBι]
            simp only [zsum]
            ring

/-! ### Well-formed values and the `mul` specification -/

/-- Well-formedness of a `ProvableBigInt`: exactly `limb_num` limbs, each at
most `mask` — the invariant the codec establishes and the gadgets assume. -/
def LimbsOk (P : BigIntParameter) (x : ProvableBigInt) : Prop :=
  x.fields.length = P.limb_num ∧ ∀ l ∈ x.fields, l ≤ P.mask

instance (P : BigIntParameter) (x : ProvableBigInt) : Decidable (LimbsOk P x) :=
  inferInstanceAs (Decidable (x.fields.length = P.limb_num ∧ ∀ l ∈ x.fields, l ≤ P.mask))

theorem limbsOk_fields_lt {P : BigIntParameter} {x : ProvableBigInt}
    (hm : P.mask = 2 ^ P.limb_size - 1) (h : LimbsOk P x) :
    ∀ l ∈ x.fields, l < 2 ^ P.limb_size := by
  intro l hl
  have h1 := h.2 l hl
  have h2 : (0 : ℕ) < 2 ^ P.limb_size := by positivity
  omega

theorem toBigint_eq_of_ok {P : BigIntParameter} {x : ProvableBigInt}
    (hm : P.mask = 2 ^ P.limb_size - 1) (h : LimbsOk P x) :
    toBigint P x = limbSum P.limb_size x.fields :=
  toBigint_eq_limbSum (limbsOk_fields_lt hm h)

theorem toBigint_lt_of_ok {P : BigIntParameter} {x : ProvableBigInt}
    (hm : P.mask = 2 ^ P.limb_size - 1) (h : LimbsOk P x) :
    toBigint P x < 2 ^ (P.limb_size * P.limb_num) := by
  rw [toBigint_eq_of_ok hm h]
  have h1 := limbSum_lt (limbsOk_fields_lt hm h)
  rw [h.1] at h1
  exact h1

theorem decomp_toBigint_of_ok {P : BigIntParameter} {x : ProvableBigInt}
    (hm : P.mask = 2 ^ P.limb_size - 1) (hp : 2 ^ P.limb_size ≤ fieldP)
    (h : LimbsOk P x) :
    decompFields P P.limb_num (toBigint P x) = x.fields := by
  rw [toBigint_eq_of_ok hm h, ← h.1]
  exact decompFields_limbSum hm hp (limbsOk_fields_lt hm h)

theorem fromBigintNat_limbsOk {P : BigIntParameter} (hm : P.mask = 2 ^ P.limb_size - 1)
    (hp : 2 ^ P.limb_size ≤ fieldP) (x : ℕ) : LimbsOk P (fromBigintNat P x) := by
  refine ⟨fromBigintNat_fields_length x, fun l hl => ?_⟩
  have h1 := fromBigintNat_fields_lt hm hp x l hl
  have h2 : (0 : ℕ) < 2 ^ P.limb_size := by positivity
  omega

theorem zsum_toBigint {P : BigIntParameter} {x : ProvableBigInt}
    (hm : P.mask = 2 ^ P.limb_size - 1) (h : LimbsOk P x) :
    zsum (((2 ^ P.limb_size : ℕ) : ZMod fieldP)) x.fields =
      ((toBigint P x : ℕ) : ZMod fieldP) := by
  rw [zsum_natCast, toBigint_eq_of_ok hm h]

theorem zsum_fromBigintNat {P : BigIntParameter} (hm : P.mask = 2 ^ P.limb_size - 1)
    (hp : 2 ^ P.limb_size ≤ fieldP) {x : ℕ} (hx : x < 2 ^ (P.limb_size * P.limb_num)) :
    zsum (((2 ^ P.limb_size : ℕ) : ZMod fieldP)) (fromBigintNat P x).fields =
      ((x : ℕ) : ZMod fieldP) := by
  show zsum _ (decompFields P P.limb_num x) = _
  rw [zsum_natCast, limbSum_decompFields hm hp, Nat.mod_eq_of_lt hx]

/-- `mul(a, b)` on a positive well-formed modulus with a representable
quotient: every emitted assertion is satisfied and the returned value is the
witnessed remainder `(a * b) mod me`. -/
theorem mulChecked_spec {P : BigIntParameter} (hm : P.mask = 2 ^ P.limb_size - 1)
    (hMAX : P.MAX = 2 ^ (P.limb_size * P.limb_num) - 1)
    (hp2 : 2 ^ (P.limb_size + 1) ≤ fieldP)
    (hinv : (fofn (1 <<< P.limb_size) * finv (fofn (1 <<< P.limb_size))) % fieldP = 1)
    {me a b : ProvableBigInt} (hmeok : LimbsOk P me) (ha : LimbsOk P a) (hb : LimbsOk P b)
    (hmpos : 0 < toBigint P me)
    (hq : toBigint P a * toBigint P b / toBigint P me ≤ P.MAX) :
    mulChecked P me a b =
      some (fromBigintNat P (toBigint P a * toBigint P b % toBigint P me)) := by
  have hdouble : (2 : ℕ) ^ (P.limb_size + 1) = 2 * 2 ^ P.limb_size := by ring
  have hB0 : (0 : ℕ) < 2 ^ P.limb_size := by positivity
  have hBle : (2 : ℕ) ^ P.limb_size ≤ fieldP := by omega
  have hn : 0 < P.limb_num := by
    by_contra hcon
    have h0 : P.limb_num = 0 := by omega
    have h1 : me.fields = [] := List.eq_nil_of_length_eq_zero (by rw [hmeok.1, h0])
    have h2 : toBigint P me = 0 := by
      unfold toBigint
      rw [h1]
      rfl
    omega
  have hmlt : toBigint P me < 2 ^ (P.limb_size * P.limb_num) := toBigint_lt_of_ok hm hmeok
  have hrlt : toBigint P a * toBigint P b % toBigint P me < toBigint P me :=
    Nat.mod_lt _ hmpos
  have hqlt : toBigint P a * toBigint P b / toBigint P me <
      2 ^ (P.limb_size * P.limb_num) := by omega
  have hq1 : fromBigintNatChecked P (toBigint P a * toBigint P b / toBigint P me) =
      some (fromBigintNat P (toBigint P a * toBigint P b / toBigint P me)) := by
    unfold fromBigintNatChecked
    rw [if_neg (by omega)]
  have hrval : toBigint P a * toBigint P b -
      toBigint P a * toBigint P b / toBigint P me * toBigint P me =
      toBigint P a * toBigint P b % toBigint P me := by
    have h5 : toBigint P a * toBigint P b % toBigint P me +
        toBigint P a * toBigint P b / toBigint P me * toBigint P me =
        toBigint P a * toBigint P b := Nat.mod_add_div' _ _
    have h6 : toBigint P a * toBigint P b / toBigint P me * toBigint P me ≤
        toBigint P a * toBigint P b := Nat.div_mul_le_self _ _
    omega
  have hr1 : fromBigintNatChecked P (toBigint P a * toBigint P b % toBigint P me) =
      some (fromBigintNat P (toBigint P a * toBigint P b % toBigint P me)) := by
    unfold fromBigintNatChecked
    rw [if_neg (by omega)]
  have hβB : ((fofn (1 <<< P.limb_size) : ℕ) : ZMod fieldP) =
      ((2 ^ P.limb_size : ℕ) : ZMod fieldP) := by
    rw [natCast_fofn, Nat.shiftLeft_eq, one_mul]
  -- the delta array
  have hlenq : (fromBigintNat P (toBigint P a * toBigint P b / toBigint P me)).fields.length
      = P.limb_num := fromBigintNat_fields_length _
  have hlenr : (fromBigintNat P (toBigint P a * toBigint P b % toBigint P me)).fields.length
      = P.limb_num := fromBigintNat_fields_length _
  have hzero : zsum (((2 ^ P.limb_size : ℕ) : ZMod fieldP))
      (mulDelta P a.fields b.fields
        (fromBigintNat P (toBigint P a * toBigint P b / toBigint P me)).fields
        (fromBigintNat P (toBigint P a * toBigint P b % toBigint P me)).fields
        me.fields) = 0 := by
    rw [mulDelta_zsum _ _ _ _ _ _ ha.1 hb.1 hlenq hlenr hmeok.1 hn]
    rw [zsum_toBigint hm ha, zsum_toBigint hm hb, zsum_toBigint hm hmeok,
      zsum_fromBigintNat hm hBle hqlt, zsum_fromBigintNat hm hBle (by omega)]
    have hid : toBigint P a * toBigint P b =
        toBigint P a * toBigint P b / toBigint P me * toBigint P me +
        toBigint P a * toBigint P b % toBigint P me := by
      have h5 := Nat.mod_add_div' (toBigint P a * toBigint P b) (toBigint P me)
      omega
    have h7 := congrArg (fun t : ℕ => (t : ZMod fieldP)) hid
    push_cast at h7
    linear_combination h7
  -- run the carry chain
  obtain ⟨c2, hcc, hc2lt, hcinv⟩ := carryChain_spec hinv
    ((mulDelta P a.fields b.fields
        (fromBigintNat P (toBigint P a * toBigint P b / toBigint P me)).fields
        (fromBigintNat P (toBigint P a * toBigint P b % toBigint P me)).fields
        me.fields).take (2 * P.limb_num - 2)) 0 fieldP_pos
  have hdlen : (mulDelta P a.fields b.fields
      (fromBigintNat P (toBigint P a * toBigint P b / toBigint P me)).fields
      (fromBigintNat P (toBigint P a * toBigint P b % toBigint P me)).fields
      me.fields).length = 2 * P.limb_num - 1 := mulDelta_length _ _ _ _ _ _
  set delta := mulDelta P a.fields b.fields
      (fromBigintNat P (toBigint P a * toBigint P b / toBigint P me)).fields
      (fromBigintNat P (toBigint P a * toBigint P b % toBigint P me)).fields
      me.fields with hdelta
  have hdroplen : (delta.drop (2 * P.limb_num - 2)).length = 1 := by
    rw [List.length_drop, hdlen]
    omega
  obtain ⟨t, ht⟩ := List.length_eq_one.mp hdroplen
  have htake_len : (delta.take (2 * P.limb_num - 2)).length = 2 * P.limb_num - 2 := by
    rw [List.length_take]
    omega
  have hgetD : delta.getD (2 * P.limb_num - 2) 0 = t := by
    have hsplit2 : delta = delta.take (2 * P.limb_num - 2) ++
        delta.drop (2 * P.limb_num - 2) := (List.take_append_drop _ _).symm
    conv_lhs => rw [hsplit2, ht]
    rw [List.getD_eq_getElem?_getD, List.getElem?_append_right (by rw [htake_len])]
    rw [htake_len]
    simp
  have hz : zsum (((2 ^ P.limb_size : ℕ) : ZMod fieldP)) delta =
      zsum (((2 ^ P.limb_size : ℕ) : ZMod fieldP)) (delta.take (2 * P.limb_num - 2)) +
      (((2 ^ P.limb_size : ℕ) : ZMod fieldP)) ^ (2 * P.limb_num - 2) *
        ((t : ℕ) : ZMod fieldP) := by
    conv_lhs => rw [(List.take_append_drop (2 * P.limb_num - 2) delta).symm, ht]
    rw [zsum_append, htake_len]
    simp [zsum]
  have hβι := natCast_inv_mul hinv
  rw [hβB] at hβι hcinv
  have hunit : IsUnit (((2 ^ P.limb_size : ℕ) : ZMod fieldP) ^ (2 * P.limb_num - 2)) :=
    (isUnit_of_mul_eq_one _ _ hβι).pow _
  have hfinal : fadd (delta.getD (2 * P.limb_num - 2) 0) c2 = 0 := by
    have h8 : ((fadd (delta.getD (2 * P.limb_num - 2) 0) c2 : ℕ) : ZMod fieldP) = 0 := by
      rw [natCast_fadd, hgetD]
      have h9 : (((t : ℕ) : ZMod fieldP) + (c2 : ZMod fieldP)) *
          (((2 ^ P.limb_size : ℕ) : ZMod fieldP)) ^ (2 * P.limb_num - 2) = 0 := by
        rw [htake_len] at hcinv
        have h10 : ((0 : ℕ) : ZMod fieldP) = 0 := Nat.cast_zero
        rw [h10, zero_add] at hcinv
        calc (((t : ℕ) : ZMod fieldP) + (c2 : ZMod fieldP)) *
            (((2 ^ P.limb_size : ℕ) : ZMod fieldP)) ^ (2 * P.limb_num - 2)
            = (c2 : ZMod fieldP) * (((2 ^ P.limb_size : ℕ) : ZMod fieldP)) ^
                (2 * P.limb_num - 2) +
              (((2 ^ P.limb_size : ℕ) : ZMod fieldP)) ^ (2 * P.limb_num - 2) *
                ((t : ℕ) : ZMod fieldP) := by ring
          _ = zsum _ (delta.take (2 * P.limb_num - 2)) +
              (((2 ^ P.limb_size : ℕ) : ZMod fieldP)) ^ (2 * P.limb_num - 2) *
                ((t : ℕ) : ZMod fieldP) := by rw [hcinv]
          _ = zsum _ delta := hz.symm
          _ = 0 := hzero
      exact (IsUnit.mul_left_eq_zero hunit).mp h9
    have h12 := (ZMod.natCast_zmod_eq_zero_iff_dvd _ _).mp h8
    exact Nat.eq_zero_of_dvd_of_lt h12 (fadd_lt _ _)
  simp only [mulChecked]
  rw [if_neg (by omega), hq1, Option.some_bind, hrval, hr1, Option.some_bind,
    ← hdelta, hcc, Option.some_bind, if_pos hfinal]

/-! ### Claims C1 and C6 -/

/-- C1: on a positive well-formed modulus, for well-formed operands whose
witnessed quotient and remainder are representable (at most `MAX`),
`mul(a, b)` succeeds — every assertion it emits (the carry-chain equalities
over the `2 * limb_num - 1` delta coefficients and the final
`delta + carry == 0`) is satisfied — and it returns a value whose limbs
encode `(a * b) mod this`; the witnessed quotient and returned remainder
satisfy the exact integer identity `a * b = q * this + r`, i.e.
`a * b - q * this - r = 0`. -/
theorem C1_mul_correct {P : BigIntParameter} (hm : P.mask = 2 ^ P.limb_size - 1)
    (hMAX : P.MAX = 2 ^ (P.limb_size * P.limb_num) - 1)
    (hp2 : 2 ^ (P.limb_size + 1) ≤ fieldP)
    (hinv : (fofn (1 <<< P.limb_size) * finv (fofn (1 <<< P.limb_size))) % fieldP = 1)
    {me a b : ProvableBigInt} (hmeok : LimbsOk P me) (ha : LimbsOk P a) (hb : LimbsOk P b)
    (hmpos : 0 < toBigint P me)
    (hq : toBigint P a * toBigint P b / toBigint P me ≤ P.MAX)
    (hr : toBigint P a * toBigint P b % toBigint P me ≤ P.MAX) :
    ∃ res, mulChecked P me a b = some res ∧
      toBigint P res = toBigint P a * toBigint P b % toBigint P me ∧
      toBigint P a * toBigint P b =
        toBigint P a * toBigint P b / toBigint P me * toBigint P me + toBigint P res := by
  have hdouble : (2 : ℕ) ^ (P.limb_size + 1) = 2 * 2 ^ P.limb_size := by ring
  have hBle : (2 : ℕ) ^ P.limb_size ≤ fieldP := by omega
  have hmlt : toBigint P me < 2 ^ (P.limb_size * P.limb_num) := toBigint_lt_of_ok hm hmeok
  have hrlt : toBigint P a * toBigint P b % toBigint P me < toBigint P me :=
    Nat.mod_lt _ hmpos
  have hres : toBigint P (fromBigintNat P (toBigint P a * toBigint P b % toBigint P me)) =
      toBigint P a * toBigint P b % toBigint P me :=
    toBigint_fromBigintNat hm hBle (by omega)
  refine ⟨_, mulChecked_spec hm hMAX hp2 hinv hmeok ha hb hmpos hq, hres, ?_⟩
  rw [hres]
  have h5 := Nat.mod_add_div' (toBigint P a * toBigint P b) (toBigint P me)
  omega

/-- C1 (witness): `mul(5, 7)` with modulus 11 at the `"384_6"` parameters. -/
theorem C1_mul_correct_witness :
    ∃ res, mulChecked BigIntParams_384_6 (fromBigintNat BigIntParams_384_6 11)
        (fromBigintNat BigIntParams_384_6 5) (fromBigintNat BigIntParams_384_6 7) =
        some res ∧
      toBigint BigIntParams_384_6 res =
        toBigint BigIntParams_384_6 (fromBigintNat BigIntParams_384_6 5) *
          toBigint BigIntParams_384_6 (fromBigintNat BigIntParams_384_6 7) %
          toBigint BigIntParams_384_6 (fromBigintNat BigIntParams_384_6 11) ∧
      toBigint BigIntParams_384_6 (fromBigintNat BigIntParams_384_6 5) *
          toBigint BigIntParams_384_6 (fromBigintNat BigIntParams_384_6 7) =
        toBigint BigIntParams_384_6 (fromBigintNat BigIntParams_384_6 5) *
            toBigint BigIntParams_384_6 (fromBigintNat BigIntParams_384_6 7) /
            toBigint BigIntParams_384_6 (fromBigintNat BigIntParams_384_6 11) *
            toBigint BigIntParams_384_6 (fromBigintNat BigIntParams_384_6 11) +
          toBigint BigIntParams_384_6 res :=
  C1_mul_correct (by decide) (by decide) (by decide) (by decide) (by decide) (by decide)
    (by decide) (by decide) (by decide) (by decide)

/-- `div(a, b)` on well-formed inputs with a nonzero divisor, when the
dividend is below the modulus and limb-wise at most the modulus limbs (so
the reducing `add` in the division-identity check reproduces `a`):
the quotient and remainder witnesses are returned unscathed. -/
theorem divChecked_spec {P : BigIntParameter} (hm : P.mask = 2 ^ P.limb_size - 1)
    (hMAX : P.MAX = 2 ^ (P.limb_size * P.limb_num) - 1)
    (hp2 : 2 ^ (P.limb_size + 1) ≤ fieldP)
    (hinv : (fofn (1 <<< P.limb_size) * finv (fofn (1 <<< P.limb_size))) % fieldP = 1)
    {me a b : ProvableBigInt} (hmeok : LimbsOk P me) (ha : LimbsOk P a) (hb : LimbsOk P b)
    (hbpos : 0 < toBigint P b)
    (halt : toBigint P a < toBigint P me)
    (hge : ∀ p ∈ a.fields.zip me.fields, p.1 ≤ p.2) :
    divChecked P me a b =
      some (fromBigintNat P ((toBigint P a - toBigint P a % toBigint P b) / toBigint P b),
        fromBigintNat P (toBigint P a % toBigint P b)) := by
  have hdouble : (2 : ℕ) ^ (P.limb_size + 1) = 2 * 2 ^ P.limb_size := by ring
  have hBle : (2 : ℕ) ^ P.limb_size ≤ fieldP := by omega
  have hmpos : 0 < toBigint P me := by omega
  have halt2 : toBigint P a < 2 ^ (P.limb_size * P.limb_num) := toBigint_lt_of_ok hm ha
  have hblt : toBigint P b < 2 ^ (P.limb_size * P.limb_num) := toBigint_lt_of_ok hm hb
  have hmodlt : toBigint P a % toBigint P b < toBigint P b := Nat.mod_lt _ hbpos
  have h5 : toBigint P a % toBigint P b +
      toBigint P a / toBigint P b * toBigint P b = toBigint P a :=
    Nat.mod_add_div' _ _
  have h6 : toBigint P a / toBigint P b * toBigint P b ≤ toBigint P a :=
    Nat.div_mul_le_self _ _
  have hqv : (toBigint P a - toBigint P a % toBigint P b) / toBigint P b =
      toBigint P a / toBigint P b := by
    have h7 : toBigint P a - toBigint P a % toBigint P b =
        toBigint P a / toBigint P b * toBigint P b := by omega
    rw [h7, Nat.mul_div_cancel _ hbpos]
  have hqle : toBigint P a / toBigint P b ≤ toBigint P a := Nat.div_le_self _ _
  have hq1 : fromBigintNatChecked P
      ((toBigint P a - toBigint P a % toBigint P b) / toBigint P b) =
      some (fromBigintNat P
        ((toBigint P a - toBigint P a % toBigint P b) / toBigint P b)) := by
    unfold fromBigintNatChecked
    rw [if_neg (by omega)]
  have hr1 : fromBigintNatChecked P (toBigint P a % toBigint P b) =
      some (fromBigintNat P (toBigint P a % toBigint P b)) := by
    unfold fromBigintNatChecked
    rw [if_neg (by omega)]
  -- the inner mul: q * b reduced by the modulus
  have hqok : LimbsOk P (fromBigintNat P
      ((toBigint P a - toBigint P a % toBigint P b) / toBigint P b)) :=
    fromBigintNat_limbsOk hm hBle _
  have hqtb : toBigint P (fromBigintNat P
      ((toBigint P a - toBigint P a % toBigint P b) / toBigint P b)) =
      toBigint P a / toBigint P b := by
    rw [hqv]
    exact toBigint_fromBigintNat hm hBle (by omega)
  have hqb : toBigint P (fromBigintNat P
        ((toBigint P a - toBigint P a % toBigint P b) / toBigint P b)) * toBigint P b =
      toBigint P a - toBigint P a % toBigint P b := by
    rw [hqtb]
    omega
  have hmul := mulChecked_spec hm hMAX hp2 hinv hmeok hqok hb hmpos
    (by rw [hqb]; have h8 := Nat.div_le_self (toBigint P a - toBigint P a % toBigint P b)
          (toBigint P me)
        omega)
  have hv1 : toBigint P (fromBigintNat P
        ((toBigint P a - toBigint P a % toBigint P b) / toBigint P b)) * toBigint P b %
        toBigint P me = toBigint P a - toBigint P a % toBigint P b := by
    rw [hqb]
    exact Nat.mod_eq_of_lt (by omega)
  rw [hv1] at hmul
  -- the reducing add reproduces a
  have hsum : toBigint P a - toBigint P a % toBigint P b + toBigint P a % toBigint P b =
      toBigint P a := by omega
  have hdecompa : decompFields P P.limb_num (toBigint P a) = a.fields :=
    decomp_toBigint_of_ok hm hBle ha
  have hadd := addChecked_eq hm hp2 me
    (fromBigintNat P (toBigint P a - toBigint P a % toBigint P b))
    (fromBigintNat P (toBigint P a % toBigint P b))
    (toBigint P a - toBigint P a % toBigint P b) (toBigint P a % toBigint P b)
    rfl rfl (by omega) (by rw [hsum, hdecompa]; exact hge) (le_of_eq hmeok.1.symm)
  rw [hsum, hdecompa] at hadd
  -- assemble
  simp only [divChecked]
  rw [if_neg (by omega), hq1, Option.some_bind, hr1, Option.some_bind, hmul,
    Option.some_bind, hadd, Option.some_bind,
    if_pos (by unfold equalsB; simp)]

/-- C6 (amended): for a well-formed positive modulus and well-formed
operands with `b ≠ 0`, **provided** the dividend `a` is below the modulus
and limb-wise at most the modulus limbs (the extra hypotheses the
counterexample forces, since the division-identity check reduces
`mul(q, b) + r` by the modulus before comparing it with `a`), `div(a, b)`
returns a quotient with value `(a - a mod b) / b` and a remainder with
value `a mod b`, and `0 ≤ r < b`; in particular with modulus `2^384 - 1`,
`div(10, 3)` returns quotient 3 and remainder 1. -/
theorem C6_div_amended {P : BigIntParameter} (hm : P.mask = 2 ^ P.limb_size - 1)
    (hMAX : P.MAX = 2 ^ (P.limb_size * P.limb_num) - 1)
    (hp2 : 2 ^ (P.limb_size + 1) ≤ fieldP)
    (hinv : (fofn (1 <<< P.limb_size) * finv (fofn (1 <<< P.limb_size))) % fieldP = 1)
    {me a b : ProvableBigInt} (hmeok : LimbsOk P me) (ha : LimbsOk P a) (hb : LimbsOk P b)
    (hbpos : 0 < toBigint P b)
    (halt : toBigint P a < toBigint P me)
    (hge : ∀ p ∈ a.fields.zip me.fields, p.1 ≤ p.2) :
    ∃ q r, divChecked P me a b = some (q, r) ∧
      toBigint P q = (toBigint P a - toBigint P a % toBigint P b) / toBigint P b ∧
      toBigint P r = toBigint P a % toBigint P b ∧
      toBigint P r < toBigint P b := by
  have hdouble : (2 : ℕ) ^ (P.limb_size + 1) = 2 * 2 ^ P.limb_size := by ring
  have hBle : (2 : ℕ) ^ P.limb_size ≤ fieldP := by omega
  have halt2 : toBigint P a < 2 ^ (P.limb_size * P.limb_num) := toBigint_lt_of_ok hm ha
  have hblt : toBigint P b < 2 ^ (P.limb_size * P.limb_num) := toBigint_lt_of_ok hm hb
  have hmodlt : toBigint P a % toBigint P b < toBigint P b := Nat.mod_lt _ hbpos
  have hqle : (toBigint P a - toBigint P a % toBigint P b) / toBigint P b ≤
      toBigint P a := le_trans (Nat.div_le_self _ _) (by omega)
  refine ⟨_, _, divChecked_spec hm hMAX hp2 hinv hmeok ha hb hbpos halt hge, ?_, ?_, ?_⟩
  · exact toBigint_fromBigintNat hm hBle (by omega)
  · exact toBigint_fromBigintNat hm hBle (by omega)
  · rw [toBigint_fromBigintNat hm hBle (by omega)]
    exact hmodlt

/-- C6 (witness): `div(10, 3)` with modulus `2^384 - 1` at the `"384_6"`
parameters returns quotient 3 and remainder 1. -/
theorem C6_div_amended_witness :
    ∃ q r, divChecked BigIntParams_384_6 (fromBigintNat BigIntParams_384_6 (2 ^ 384 - 1))
        (fromBigintNat BigIntParams_384_6 10) (fromBigintNat BigIntParams_384_6 3) =
        some (q, r) ∧
      toBigint BigIntParams_384_6 q =
        (toBigint BigIntParams_384_6 (fromBigintNat BigIntParams_384_6 10) -
          toBigint BigIntParams_384_6 (fromBigintNat BigIntParams_384_6 10) %
            toBigint BigIntParams_384_6 (fromBigintNat BigIntParams_384_6 3)) /
          toBigint BigIntParams_384_6 (fromBigintNat BigIntParams_384_6 3) ∧
      toBigint BigIntParams_384_6 r =
        toBigint BigIntParams_384_6 (fromBigintNat BigIntParams_384_6 10) %
          toBigint BigIntParams_384_6 (fromBigintNat BigIntParams_384_6 3) ∧
      toBigint BigIntParams_384_6 r <
        toBigint BigIntParams_384_6 (fromBigintNat BigIntParams_384_6 3) :=
  C6_div_amended (by decide) (by decide) (by decide) (by decide) (by decide) (by decide)
    (by decide) (by decide) (by decide) (by decide)

end O1js
